import Mathlib

/-
Verification of the schema-normalization logic of this repository.

The normalizer under study is the pair of functions
`_sanitize_schema_type_fixed` and `_sanitize_schema_formats_for_gemini_fixed`
of `src/test_fix_proposal.py`, which rewrite a JSON-Schema-like tree (a
nested dict) into the restricted shape expected by the downstream
model-provider schema consumer.  Python dicts are embedded as ordered
association lists (`JObj`), JSON arrays as `JList`, and scalar values as the
corresponding `JVal` constructors.  Dict iteration order and the
insertion-order/overwrite semantics of Python dict assignment are modelled
explicitly (`pyDictAux`).
-/

namespace AdkSchema

mutual

/-- A JSON-like value as handled by the Python sources: strings, integers,
booleans, `None`/null, lists and (ordered) dicts with string keys. -/
inductive JVal : Type where
  | str (s : String) : JVal
  | int (n : Int) : JVal
  | bool (b : Bool) : JVal
  | null : JVal
  | arr (xs : JList) : JVal
  | obj (fs : JObj) : JVal
deriving DecidableEq

/-- A list of JSON values. -/
inductive JList : Type where
  | nil : JList
  | cons (v : JVal) (rest : JList) : JList
deriving DecidableEq

/-- An ordered association list of string keys to JSON values, modelling a
Python dict (keys unique, insertion order preserved). -/
inductive JObj : Type where
  | nil : JObj
  | cons (k : String) (v : JVal) (rest : JObj) : JObj
deriving DecidableEq

end

/-- The entries of a `JObj` as a Lean list of pairs. -/
def JObj.entries : JObj → List (String × JVal)
  | .nil => []
  | .cons k v rest => (k, v) :: rest.entries

/-- The keys of a `JObj`, in order. -/
def JObj.keys : JObj → List String
  | .nil => []
  | .cons k _ rest => k :: rest.keys

/-- The elements of a `JList` as a Lean list. -/
def JList.toList : JList → List JVal
  | .nil => []
  | .cons v rest => v :: rest.toList

/-- Lookup of a key in a dict (first binding wins; bindings are unique in
objects that model actual Python dicts).  Models `schema.get(key)` /
`schema[key]`. -/
def JObj.lookupKey : JObj → String → Option JVal
  | .nil, _ => none
  | .cons k v rest, x => if k = x then some v else rest.lookupKey x

/-- Python dict assignment `d[k] = v`: overwrites the value in place if the
key is present (keeping its position), otherwise appends the binding. -/
def JObj.setKey : JObj → String → JVal → JObj
  | .nil, x, w => .cons x w .nil
  | .cons k v rest, x, w => if k = x then .cons k w rest else .cons k v (rest.setKey x w)

/-- Python dict deletion `del d[k]` (removes every binding of the key; in a
genuine dict there is at most one). -/
def JObj.eraseKey : JObj → String → JObj
  | .nil, _ => .nil
  | .cons k v rest, x => if k = x then rest.eraseKey x else .cons k v (rest.eraseKey x)

/-- Python truthiness of a JSON value: `""`, `0`, `False`, `None`, `[]` and
`{}` are falsy, everything else truthy. -/
def truthy : JVal → Bool
  | .str s => s ≠ ""
  | .int n => n ≠ 0
  | .bool b => b
  | .null => false
  | .arr .nil => false
  | .arr (.cons _ _) => true
  | .obj .nil => false
  | .obj (.cons _ _ _) => true

/-- The ASCII upper-case/lower-case letter pairs. -/
def upperLower : List (Char × Char) :=
  [('A', 'a'), ('B', 'b'), ('C', 'c'), ('D', 'd'), ('E', 'e'), ('F', 'f'),
   ('G', 'g'), ('H', 'h'), ('I', 'i'), ('J', 'j'), ('K', 'k'), ('L', 'l'),
   ('M', 'm'), ('N', 'n'), ('O', 'o'), ('P', 'p'), ('Q', 'q'), ('R', 'r'),
   ('S', 's'), ('T', 't'), ('U', 'u'), ('V', 'v'), ('W', 'w'), ('X', 'x'),
   ('Y', 'y'), ('Z', 'z')]

/-- Whether a character is an ASCII upper-case letter. -/
def isUpperA (c : Char) : Bool := upperLower.any (fun p => p.1 = c)

/-- Lower-cases an ASCII upper-case letter; leaves any other character
unchanged. -/
def lowerAscii (c : Char) : Char :=
  match upperLower.find? (fun p => p.1 = c) with
  | some p => p.2
  | none => c

/-- One step of camel-case to snake-case conversion over a character list;
the first argument is the previous character (if any).  An underscore is
inserted before an upper-case letter that follows a lower-case letter or a
digit, and every character is lower-cased. -/
def snakeChars : Option Char → List Char → List Char
  | _, [] => []
  | p, c :: cs =>
      (if isUpperA c && (match p with | some q => q.isLower || q.isDigit | none => false)
       then ['_', lowerAscii c] else [lowerAscii c]) ++ snakeChars (some c) cs

/-- Modelled from the spec: `_to_snake_case` of
`google.adk.tools._gemini_schema_util` is imported but not defined under
`src/`; per the spec, "field names are converted from the input document's
naming convention (e.g., camel-case) to the normalized tree's internal
naming convention (e.g., snake-case) during the same pass — purely a
renaming".  E.g. `toSnakeCase "anyOf" = "any_of"`. -/
def toSnakeCase (s : String) : String := ⟨snakeChars none s.data⟩

/-- Modelled from the spec: the field set of `_ExtendedJSONSchema`
(`google.adk.tools._gemini_schema_util`, not under `src/`) — the
JSON-Schema keys recognized by the pipeline, i.e. the structural keys plus
"a recognized allow-list of annotation keys … (description, title, numeric
bounds, enumerated-value hints, format hints)". -/
def extendedJSONSchemaFields : List String :=
  ["type", "format", "title", "description", "default", "items",
   "min_items", "max_items", "enum", "properties", "required",
   "min_properties", "max_properties", "minimum", "maximum",
   "min_length", "max_length", "pattern", "any_of",
   "additional_properties", "property_ordering"]

/-- `supported_fields` of `_sanitize_schema_formats_for_gemini_fixed`:
the `_ExtendedJSONSchema` fields with `additional_properties` discarded. -/
def supported_fields : List String :=
  extendedJSONSchemaFields.filter (fun f => f ≠ "additional_properties")

/-- `schema_field_names` of the source: keys whose value is a sub-schema. -/
def schema_field_names : List String := ["items"]

/-- `list_schema_field_names` of the source: keys whose value is a list of
sub-schemas. -/
def list_schema_field_names : List String := ["any_of"]

/-- `dict_schema_field_names` of the source: keys whose value is a dict of
sub-schemas. -/
def dict_schema_field_names : List String := ["properties", "defs"]

/-- `schema.keys().isdisjoint(schema)` of the source: iterating a dict
yields its keys, so this asks whether the key set is disjoint from itself —
true exactly when the dict is empty. -/
def keysSelfDisjoint (s : JObj) : Bool :=
  s.keys.all (fun k => !(s.keys.contains k))

/-- The `for t in schema["type"]` loop of `_sanitize_schema_type_fixed`:
accumulates the `nullable` flag and `non_null_type` (a `"null"` entry sets
`nullable`; any other entry is recorded as `non_null_type` if the current
`non_null_type` is falsy). -/
def typeListScan : JList → Bool → JVal → Bool × JVal
  | .nil, nullable, nonNull => (nullable, nonNull)
  | .cons t rest, nullable, nonNull =>
      if t = .str "null" then typeListScan rest true nonNull
      else if !truthy nonNull then typeListScan rest nullable t
      else typeListScan rest nullable nonNull

/-- `_sanitize_schema_type_fixed` of `src/test_fix_proposal.py` (lines
14–38): defaults an empty schema's `type` to `"object"`, collapses a
list-valued `type` to `[first-non-null-tag, "null"]` (if `"null"` occurs)
or to the first non-null tag alone, and rewrites a bare `type: "null"` to
`["object", "null"]` — the latter only outside `anyOf` (the fix). -/
def sanitize_schema_type_fixed (schema : JObj) (in_any_of : Bool) : JObj :=
  let schema :=
    if ((match schema.lookupKey "type" with
         | none => true
         | some v => !truthy v) && keysSelfDisjoint schema) then
      schema.setKey "type" (.str "object")
    else schema
  match schema.lookupKey "type" with
  | some (.arr ts) =>
      let p := typeListScan ts false .null
      let nonNull := if !truthy p.2 then JVal.str "object" else p.2
      if p.1 then
        schema.setKey "type" (.arr (.cons nonNull (.cons (.str "null") .nil)))
      else schema.setKey "type" nonNull
  | some (.str "null") =>
      if !in_any_of then
        schema.setKey "type" (.arr (.cons (.str "object") (.cons (.str "null") .nil)))
      else schema
  | _ => schema

/-- Folding the emitted bindings into a fresh dict with Python dict
assignment (`snake_case_schema[field_name_snake] = ...`): a later binding of
an existing key overwrites its value in place, a new key is appended. -/
def pyDictAux : JObj → JObj → JObj
  | .nil, acc => acc
  | .cons k v rest, acc => pyDictAux rest (acc.setKey k v)

mutual

/-- `_sanitize_schema_formats_for_gemini_fixed` of `src/test_fix_proposal.py`
(lines 40–81): rebuilds the dict with snake-cased keys, recursing into
`items` (same `in_any_of`), `any_of` (with `in_any_of = True`) and
`properties`/`defs` (same `in_any_of`), keeping `format` only when
compatible with the node's original `type`, keeping other supported
non-`None` fields verbatim and dropping everything else; finally applies
`_sanitize_schema_type_fixed`.  A non-dict argument is returned unchanged
(the Python source would raise `AttributeError` there; such values do not
occur in well-formed schema trees). -/
def sanitize_schema_formats_for_gemini_fixed (schema : JVal) (in_any_of : Bool) : JVal :=
  match schema with
  | .obj fs =>
      .obj (sanitize_schema_type_fixed
        (pyDictAux (sanitizeFields (fs.lookupKey "type") fs in_any_of) .nil) in_any_of)
  | v => v
termination_by structural schema

/-- The `for field_name, field_value in schema.items()` loop of
`_sanitize_schema_formats_for_gemini_fixed`, emitting the processed
bindings in iteration order (duplicate snake-cased keys are collapsed
afterwards by `pyDictAux`, mirroring Python dict assignment).  `curType`
is `schema.get("type")` of the original dict. -/
def sanitizeFields (curType : Option JVal) (fs : JObj) (in_any_of : Bool) : JObj :=
  match fs with
  | .nil => .nil
  | .cons k v rest =>
      let ks := toSnakeCase k
      let tail := sanitizeFields curType rest in_any_of
      if schema_field_names.contains ks then
        .cons ks (sanitize_schema_formats_for_gemini_fixed v in_any_of) tail
      else if list_schema_field_names.contains ks then
        .cons ks (sanitizeAnyOfVal v) tail
      else if dict_schema_field_names.contains ks ∧ v ≠ .null then
        .cons ks (sanitizePropsVal v in_any_of) tail
      else if ks = "format" ∧ truthy v then
        if ((curType = some (.str "integer") ∨ curType = some (.str "number")) ∧
              (v = .str "int32" ∨ v = .str "int64")) ∨
           (curType = some (.str "string") ∧ (v = .str "date-time" ∨ v = .str "enum")) then
          .cons ks v tail
        else tail
      else if supported_fields.contains ks ∧ v ≠ .null then
        .cons ks v tail
      else tail
termination_by structural fs

/-- The `any_of` branch: each element of the list is sanitized with
`in_any_of = True`.  (A non-list value is returned unchanged; the Python
source would fail there.) -/
def sanitizeAnyOfVal (v : JVal) : JVal :=
  match v with
  | .arr xs => .arr (sanitizeAnyOfList xs)
  | w => w
termination_by structural v

/-- Element-wise sanitization of an `any_of` list, with `in_any_of = True`. -/
def sanitizeAnyOfList (xs : JList) : JList :=
  match xs with
  | .nil => .nil
  | .cons v rest => .cons (sanitize_schema_formats_for_gemini_fixed v true)
      (sanitizeAnyOfList rest)
termination_by structural xs

/-- The `properties`/`defs` branch: each value of the dict is sanitized with
the current `in_any_of`.  (A non-dict value is returned unchanged; the
Python source would fail there.) -/
def sanitizePropsVal (v : JVal) (in_any_of : Bool) : JVal :=
  match v with
  | .obj es => .obj (sanitizeProps es in_any_of)
  | w => w
termination_by structural v

/-- Value-wise sanitization of a `properties`/`defs` dict. -/
def sanitizeProps (es : JObj) (in_any_of : Bool) : JObj :=
  match es with
  | .nil => .nil
  | .cons k v rest => .cons k (sanitize_schema_formats_for_gemini_fixed v in_any_of)
      (sanitizeProps rest in_any_of)
termination_by structural es

end

/-- One iteration of the field loop, as a single step: `none` when the
field is dropped, otherwise the snake-cased key and the processed value
(`sanitizeFields` is the fold of this step, see `sanitizeFields_cons`). -/
def emitEntry (curType : Option JVal) (in_any_of : Bool) (k : String) (v : JVal) :
    Option (String × JVal) :=
  let ks := toSnakeCase k
  if schema_field_names.contains ks then
    some (ks, sanitize_schema_formats_for_gemini_fixed v in_any_of)
  else if list_schema_field_names.contains ks then
    some (ks, sanitizeAnyOfVal v)
  else if dict_schema_field_names.contains ks ∧ v ≠ .null then
    some (ks, sanitizePropsVal v in_any_of)
  else if ks = "format" ∧ truthy v then
    if ((curType = some (.str "integer") ∨ curType = some (.str "number")) ∧
          (v = .str "int32" ∨ v = .str "int64")) ∨
       (curType = some (.str "string") ∧ (v = .str "date-time" ∨ v = .str "enum")) then
      some (ks, v)
    else none
  else if supported_fields.contains ks ∧ v ≠ .null then
    some (ks, v)
  else none

/-- Builds a `JObj` from a Lean list of bindings (notation convenience). -/
def JObj.ofList : List (String × JVal) → JObj
  | [] => .nil
  | (k, v) :: rest => .cons k v (JObj.ofList rest)

/-- Builds a `JList` from a Lean list (notation convenience). -/
def JList.ofList : List JVal → JList
  | [] => .nil
  | v :: rest => .cons v (JList.ofList rest)

/-- The bare null-type node `{"type": "null"}`. -/
def nullTypeNode : JVal := .obj (.cons "type" (.str "null") .nil)

/-- Python dict `update` semantics: overwrites `base` with every binding of
`annots` in order; the overwriting side takes precedence on shared keys. -/
def overwriteAll : JObj → JObj → JObj
  | base, .nil => base
  | base, .cons k v rest => overwriteAll (base.setKey k v) rest

/-- Modelled from the spec: the two-element nullable-union collapse
performed downstream of the sanitizer (by `Schema.from_json_schema` of the
model-provider client, invoked from `_to_gemini_schema` /
`src/test_fix_proposal.py` lines 111–117; not code under `src/`): the union
"collapses to `X` with `nullable` set true and the union node's own
annotations merged onto `X` (union node's `description`/`title` take
precedence if both union node and `X` define them)". -/
def collapseNullable (x : JVal) (annots : JObj) : JVal :=
  match x with
  | .obj xf => .obj ((overwriteAll xf annots).setKey "nullable" (.bool true))
  | w => w

/-- Modelled from the spec: the list-valued-`type` collapse performed
downstream of the sanitizer — "a node with `type` expressed as a list
containing `null` plus exactly one other tag collapses to
`type = <other tag>`, `nullable = true`".  The sanitizer always emits such
lists with `"null"` last, which is the shape consumed here. -/
def typeListCollapse (fs : JObj) : JObj :=
  match fs.lookupKey "type" with
  | some (.arr (.cons t (.cons (.str "null") .nil))) =>
      if t = .str "null" then fs else (fs.setKey "type" t).setKey "nullable" (.bool true)
  | _ => fs

mutual

/-- Modelled from the spec: the downstream conversion step
(`Schema.from_json_schema` of the model-provider client, not code under
`src/`) that consumes the sanitizer's output: it recurses into
`properties`, `items` and `any_of`, collapses a two-element `any_of` in
which exactly one alternative is the bare null-type node
(`collapseNullable`), and otherwise collapses a `[T, "null"]` list-valued
`type` to `type = T` with `nullable = true` (`typeListCollapse`). -/
def schema_from_json_schema (v : JVal) : JVal :=
  match v with
  | .obj fs =>
      match (fromJsonFields fs).lookupKey "any_of" with
      | some (.arr (.cons a (.cons b .nil))) =>
          if a = nullTypeNode ∧ b ≠ nullTypeNode then
            collapseNullable b ((fromJsonFields fs).eraseKey "any_of")
          else if b = nullTypeNode ∧ a ≠ nullTypeNode then
            collapseNullable a ((fromJsonFields fs).eraseKey "any_of")
          else .obj (typeListCollapse (fromJsonFields fs))
      | _ => .obj (typeListCollapse (fromJsonFields fs))
  | w => w
termination_by structural v

/-- Recursion of the modelled downstream step into `items`, `any_of` and
`properties` values (keys are already snake-cased at this stage). -/
def fromJsonFields (fs : JObj) : JObj :=
  match fs with
  | .nil => .nil
  | .cons k v rest =>
      if k = "items" then .cons k (schema_from_json_schema v) (fromJsonFields rest)
      else if k = "any_of" then .cons k (fromJsonAnyOfVal v) (fromJsonFields rest)
      else if k = "properties" then .cons k (fromJsonPropsVal v) (fromJsonFields rest)
      else .cons k v (fromJsonFields rest)
termination_by structural fs

/-- Element-wise recursion of the modelled downstream step into `any_of`. -/
def fromJsonAnyOfVal (v : JVal) : JVal :=
  match v with
  | .arr xs => .arr (fromJsonList xs)
  | w => w
termination_by structural v

/-- Element-wise recursion of the modelled downstream step into a list. -/
def fromJsonList (xs : JList) : JList :=
  match xs with
  | .nil => .nil
  | .cons v rest => .cons (schema_from_json_schema v) (fromJsonList rest)
termination_by structural xs

/-- Value-wise recursion of the modelled downstream step into `properties`. -/
def fromJsonPropsVal (v : JVal) : JVal :=
  match v with
  | .obj es => .obj (fromJsonProps es)
  | w => w
termination_by structural v

/-- Value-wise recursion of the modelled downstream step into a dict. -/
def fromJsonProps (es : JObj) : JObj :=
  match es with
  | .nil => .nil
  | .cons k v rest => .cons k (schema_from_json_schema v) (fromJsonProps rest)
termination_by structural es

end

/-- The "Fixed Approach" pipeline of `src/test_fix_proposal.py` (lines
110–117): the in-`src` sanitizer followed by the (spec-modelled) downstream
conversion — the full normalization the spec's `SchemaNormalizer`
describes. -/
def to_gemini_schema_fixed (schema : JVal) : JVal :=
  schema_from_json_schema (sanitize_schema_formats_for_gemini_fixed schema false)

/-- Boolean "no duplicates" check on a list of strings. -/
def nodupB : List String → Bool
  | [] => true
  | x :: xs => !(xs.contains x) && nodupB xs

/-- Every element of the list is a string (a type tag). -/
def allStrTags : JList → Bool
  | .nil => true
  | .cons v rest => (match v with | .str _ => true | _ => false) && allStrTags rest

/-- The shape the data model allows for a `type` value: a single tag or a
list of tags (spec §3: "`type`: one of a fixed set of primitive kind tags
…, OR an ordered list of such tags, OR absent"). -/
def typeShapeOK (v : JVal) : Bool :=
  match v with
  | .arr xs => allStrTags xs
  | _ => true

mutual

/-- Well-formed schema tree, following the spec's data model (§3): every
node is a dict; `items` values are nodes, `any_of` values are lists of
nodes, `properties`/`defs` values are dicts of nodes (or `None`, which the
code drops); a `type` value is a tag or a list of tags; and field names are
distinct after snake-casing (they are keys of a mapping, and the spec calls
the renaming "purely a renaming").  All other fields are unconstrained. -/
def wfVal (v : JVal) : Bool :=
  match v with
  | .obj fs => nodupB (fs.keys.map toSnakeCase) && wfFields fs
  | _ => false
termination_by structural v

/-- Entry-wise well-formedness of a node's field list. -/
def wfFields (fs : JObj) : Bool :=
  match fs with
  | .nil => true
  | .cons k v rest =>
      (if schema_field_names.contains (toSnakeCase k) then wfVal v
       else if list_schema_field_names.contains (toSnakeCase k) then wfAnyOfVal v
       else if dict_schema_field_names.contains (toSnakeCase k) then wfPropsVal v
       else if toSnakeCase k = "type" then typeShapeOK v
       else true) && wfFields rest
termination_by structural fs

/-- Well-formedness of an `any_of` value: a list of well-formed nodes. -/
def wfAnyOfVal (v : JVal) : Bool :=
  match v with
  | .arr xs => wfList xs
  | _ => false
termination_by structural v

/-- Element-wise well-formedness of a list of nodes. -/
def wfList (xs : JList) : Bool :=
  match xs with
  | .nil => true
  | .cons v rest => wfVal v && wfList rest
termination_by structural xs

/-- Well-formedness of a `properties`/`defs` value: `None` or a dict of
well-formed nodes. -/
def wfPropsVal (v : JVal) : Bool :=
  match v with
  | .null => true
  | .obj es => wfProps es
  | _ => false
termination_by structural v

/-- Value-wise well-formedness of a dict of nodes. -/
def wfProps (es : JObj) : Bool :=
  match es with
  | .nil => true
  | .cons _ v rest => wfVal v && wfProps rest
termination_by structural es

end

/-- Field access on a node: the binding of `k` when the value is a dict. -/
def nodeField (v : JVal) (k : String) : Option JVal :=
  match v with
  | .obj fs => fs.lookupKey k
  | _ => none

/-- The keys of a node (empty for non-dict values). -/
def nodeKeys (v : JVal) : List String :=
  match v with
  | .obj fs => fs.keys
  | _ => []

/-- The keys an output node may carry: the structural keys, `format`, and
the supported allow-list (the spec's "recognized allow-list"). -/
def recognizedKeys : List String :=
  schema_field_names ++ list_schema_field_names ++ dict_schema_field_names ++
    "format" :: supported_fields

/-- The `format`-compatibility condition of the source's `format` branch,
as a single predicate over the node's original `type` value. -/
def formatCond (curType : Option JVal) (v : JVal) : Prop :=
  ((curType = some (.str "integer") ∨ curType = some (.str "number")) ∧
    (v = .str "int32" ∨ v = .str "int64")) ∨
  (curType = some (.str "string") ∧ (v = .str "date-time" ∨ v = .str "enum"))

instance (curType : Option JVal) (v : JVal) : Decidable (formatCond curType v) := by
  unfold formatCond; infer_instance

mutual

/-- A node is *stable* when re-running the sanitizer on it (with the given
`in_any_of` flag) returns it unchanged: its keys are distinct fixpoints of
snake-casing, every field satisfies the branch it will be routed to, and the
type-sanitizing step is inert on it.  `sanitize_schema_formats_for_gemini_fixed`
maps well-formed nodes to stable ones, which is the heart of idempotence. -/
def stableVal (v : JVal) (b : Bool) : Bool :=
  match v with
  | .obj fs =>
      nodupB fs.keys && stableFields fs b (fs.lookupKey "type") &&
        decide (sanitize_schema_type_fixed fs b = fs)
  | _ => false
termination_by structural v

/-- Entry-wise stability of a node's field list (`ct` is the node's own
`type` binding, consulted by the `format` branch). -/
def stableFields (fs : JObj) (b : Bool) (ct : Option JVal) : Bool :=
  match fs with
  | .nil => true
  | .cons k w rest =>
      (decide (toSnakeCase k = k) &&
       (if schema_field_names.contains k then stableVal w b
        else if list_schema_field_names.contains k then stableAnyOf w
        else if dict_schema_field_names.contains k then
          decide (w ≠ .null) && stableDict w b
        else if k = "format" then
          decide (w ≠ .null) && (!truthy w || decide (formatCond ct w))
        else supported_fields.contains k && decide (w ≠ .null))) &&
      stableFields rest b ct
termination_by structural fs

/-- Stability of a value routed through the `any_of` branch: only a list of
sub-schemas is recursed into, anything else passes unchanged. -/
def stableAnyOf (w : JVal) : Bool :=
  match w with
  | .arr xs => stableList xs
  | _ => true
termination_by structural w

/-- Stability of a value routed through the dict branch (`properties`/`defs`):
only an object has its values recursed into. -/
def stableDict (w : JVal) (b : Bool) : Bool :=
  match w with
  | .obj es => stableProps es b
  | _ => true
termination_by structural w

/-- Element-wise stability of an `any_of` list (elements carry the
inside-union flag). -/
def stableList (xs : JList) : Bool :=
  match xs with
  | .nil => true
  | .cons v rest => stableVal v true && stableList rest
termination_by structural xs

/-- Value-wise stability of a `properties`/`defs` dict. -/
def stableProps (es : JObj) (b : Bool) : Bool :=
  match es with
  | .nil => true
  | .cons _ v rest => stableVal v b && stableProps rest b
termination_by structural es

end

/-- One iteration of the field loop, value side: `none` when the field is
dropped, otherwise the processed value (the emitted key is always
`toSnakeCase` of the field name; see `sanitizeFields_cons`). -/
def emitVal (curType : Option JVal) (in_any_of : Bool) (k : String) (v : JVal) :
    Option JVal :=
  let ks := toSnakeCase k
  if schema_field_names.contains ks then
    some (sanitize_schema_formats_for_gemini_fixed v in_any_of)
  else if list_schema_field_names.contains ks then
    some (sanitizeAnyOfVal v)
  else if dict_schema_field_names.contains ks ∧ v ≠ .null then
    some (sanitizePropsVal v in_any_of)
  else if ks = "format" ∧ truthy v then
    if formatCond curType v then some v else none
  else if supported_fields.contains ks ∧ v ≠ .null then
    some v
  else none

/-- The final `non_null_type` computed by the type-list loop. -/
def scanNonNull (ts : JList) : JVal :=
  if !truthy (typeListScan ts false .null).2 then JVal.str "object"
  else (typeListScan ts false .null).2

/-- The `nullable` flag computed by the type-list loop. -/
def scanNullable (ts : JList) : Bool := (typeListScan ts false .null).1

/-- Whether a type list mentions the `"null"` tag. -/
def containsNullTag : JList → Bool
  | .nil => false
  | .cons t rest => if t = .str "null" then true else containsNullTag rest

/-- Concatenation of two binding lists. -/
def appendObj : JObj → JObj → JObj
  | .nil, t => t
  | .cons k v rest, t => .cons k v (appendObj rest t)

/- ### Association-list lemmas -/

/-- Shallow structural induction on `JObj` (no hypothesis on the values;
the mutually defined recursor is inconvenient for the `induction` tactic). -/
@[induction_eliminator]
theorem JObj.objInductionOn {motive : JObj → Prop} (s : JObj) (nil : motive .nil)
    (cons : ∀ k v rest, motive rest → motive (.cons k v rest)) : motive s :=
  match s with
  | .nil => nil
  | .cons k v rest => cons k v rest (JObj.objInductionOn rest nil cons)
termination_by structural s

/-- Shallow structural induction on `JList`. -/
@[induction_eliminator]
theorem JList.listInductionOn {motive : JList → Prop} (xs : JList) (nil : motive .nil)
    (cons : ∀ v rest, motive rest → motive (.cons v rest)) : motive xs :=
  match xs with
  | .nil => nil
  | .cons v rest => cons v rest (JList.listInductionOn rest nil cons)
termination_by structural xs

theorem lookupKey_setKey_self (s : JObj) (k : String) (v : JVal) :
    (s.setKey k v).lookupKey k = some v := by
  induction s with
  | nil => simp [JObj.setKey, JObj.lookupKey]
  | cons k' v' rest ih =>
      by_cases h : k' = k <;> simp [JObj.setKey, JObj.lookupKey, h, ih]

theorem lookupKey_setKey_ne (s : JObj) {k x : String} (v : JVal) (h : k ≠ x) :
    (s.setKey k v).lookupKey x = s.lookupKey x := by
  induction s with
  | nil => simp [JObj.setKey, JObj.lookupKey, h]
  | cons k' v' rest ih =>
      by_cases h' : k' = k
      · subst h'; simp [JObj.setKey, JObj.lookupKey, h]
      · simp [JObj.setKey, JObj.lookupKey, h', ih]

theorem keys_setKey (s : JObj) (k : String) (v : JVal) :
    (s.setKey k v).keys = if k ∈ s.keys then s.keys else s.keys ++ [k] := by
  induction s with
  | nil => simp [JObj.setKey, JObj.keys]
  | cons k' v' rest ih =>
      by_cases h : k' = k
      · subst h; simp [JObj.setKey, JObj.keys]
      · simp only [JObj.setKey, if_neg h, JObj.keys, ih, List.mem_cons]
        by_cases hm : k ∈ rest.keys
        · simp [hm, Ne.symm h]
        · simp [hm, Ne.symm h]

theorem lookupKey_eq_none_of_not_mem (s : JObj) (x : String) (h : x ∉ s.keys) :
    s.lookupKey x = none := by
  induction s with
  | nil => simp [JObj.lookupKey]
  | cons k v rest ih =>
      simp only [JObj.keys, List.mem_cons, not_or] at h
      simp [JObj.lookupKey, Ne.symm h.1, ih h.2]

theorem mem_keys_of_lookupKey_some (s : JObj) (x : String) (v : JVal)
    (h : s.lookupKey x = some v) : x ∈ s.keys := by
  induction s with
  | nil => simp [JObj.lookupKey] at h
  | cons k v' rest ih =>
      simp only [JObj.lookupKey] at h
      by_cases hk : k = x
      · simp [JObj.keys, hk]
      · simp only [if_neg hk] at h
        simp [JObj.keys, ih h]

theorem lookupKey_some_mem_entries (s : JObj) (x : String) (v : JVal)
    (h : s.lookupKey x = some v) : (x, v) ∈ s.entries := by
  induction s with
  | nil => simp [JObj.lookupKey] at h
  | cons k v' rest ih =>
      rw [JObj.lookupKey] at h
      split at h
      next hk =>
        obtain rfl := Option.some.inj h
        subst hk
        simp [JObj.entries]
      next hk =>
        simp [JObj.entries, ih h]

theorem mem_keys_of_mem_entries (s : JObj) (k : String) (v : JVal)
    (h : (k, v) ∈ s.entries) : k ∈ s.keys := by
  induction s with
  | nil => simp [JObj.entries] at h
  | cons k' v' rest ih =>
      simp only [JObj.entries, List.mem_cons, Prod.mk.injEq] at h
      rcases h with ⟨h1, _⟩ | h
      · simp [JObj.keys, h1]
      · simp [JObj.keys, ih h]

theorem keys_eraseKey (s : JObj) (x : String) :
    (s.eraseKey x).keys = s.keys.filter (fun k => k ≠ x) := by
  induction s with
  | nil => simp [JObj.eraseKey, JObj.keys]
  | cons k v rest ih =>
      by_cases h : k = x
      · simp [JObj.eraseKey, h, JObj.keys, ih, List.filter_cons]
      · simp [JObj.eraseKey, h, JObj.keys, ih, List.filter_cons]

theorem keysSelfDisjoint_eq_true_iff (s : JObj) : keysSelfDisjoint s = true ↔ s = .nil := by
  cases s with
  | nil => simp [keysSelfDisjoint, JObj.keys]
  | cons k v rest =>
      simp only [keysSelfDisjoint, JObj.keys]
      constructor
      · intro h
        have := (List.all_eq_true.mp h) k (by simp)
        simp at this
      · intro h; cases h

theorem keysSelfDisjoint_false_of_lookup_some (s : JObj) (x : String) (v : JVal)
    (h : s.lookupKey x = some v) : keysSelfDisjoint s = false := by
  cases s with
  | nil => simp [JObj.lookupKey] at h
  | cons k v' rest =>
      rcases hb : keysSelfDisjoint (JObj.cons k v' rest) with _ | _
      · rfl
      · exact absurd ((keysSelfDisjoint_eq_true_iff _).mp hb) (by simp)

/-- `setKey` on an absent key appends the binding at the end. -/
theorem setKey_eq_append_of_not_mem (s : JObj) (k : String) (v : JVal)
    (h : k ∉ s.keys) : s.setKey k v = appendObj s (.cons k v .nil) := by
  induction s with
  | nil => simp [JObj.setKey, appendObj]
  | cons k' v' rest ih =>
      simp only [JObj.keys, List.mem_cons, not_or] at h
      simp [JObj.setKey, Ne.symm h.1, appendObj, ih h.2]

theorem appendObj_nil (s : JObj) : appendObj s .nil = s := by
  induction s with
  | nil => rfl
  | cons k v rest ih => simp [appendObj, ih]

theorem appendObj_assoc (a b c : JObj) :
    appendObj (appendObj a b) c = appendObj a (appendObj b c) := by
  induction a with
  | nil => rfl
  | cons k v rest ih => simp [appendObj, ih]

theorem keys_appendObj (a b : JObj) : (appendObj a b).keys = a.keys ++ b.keys := by
  induction a with
  | nil => simp [appendObj, JObj.keys]
  | cons k v rest ih => simp [appendObj, JObj.keys, ih]

theorem contains_eq_true_iff (l : List String) (x : String) :
    l.contains x = true ↔ x ∈ l := by
  induction l with
  | nil => simp
  | cons y ys ih => simp [List.contains_cons, ih, beq_iff_eq, List.mem_cons]

theorem nodupB_iff (l : List String) : nodupB l = true ↔ l.Nodup := by
  induction l with
  | nil => simp [nodupB]
  | cons x xs ih =>
      simp [nodupB, List.nodup_cons, ih, contains_eq_true_iff, Bool.and_eq_true]

theorem nodupB_cons_head (x : String) (xs : List String)
    (h : nodupB (x :: xs) = true) : x ∉ xs := by
  have := (nodupB_iff _).mp h
  exact (List.nodup_cons.mp this).1

theorem nodupB_cons_tail (x : String) (xs : List String)
    (h : nodupB (x :: xs) = true) : nodupB xs = true := by
  have := (nodupB_iff _).mp h
  exact (nodupB_iff _).mpr (List.nodup_cons.mp this).2

/-- `pyDictAux` over bindings with pairwise-distinct keys, folded into an
accumulator whose keys are disjoint from them, is plain concatenation. -/
theorem pyDictAux_eq_append (fs : JObj) : ∀ acc : JObj,
    nodupB fs.keys = true → (∀ k ∈ fs.keys, k ∉ acc.keys) →
    pyDictAux fs acc = appendObj acc fs := by
  induction fs with
  | nil => intro acc _ _; simp [pyDictAux, appendObj_nil]
  | cons k v rest ih =>
      intro acc h1 h2
      rw [pyDictAux]
      have hk : k ∉ acc.keys := h2 k (by simp [JObj.keys])
      have hknr : k ∉ rest.keys := nodupB_cons_head _ _ (by simpa [JObj.keys] using h1)
      rw [setKey_eq_append_of_not_mem _ _ _ hk]
      rw [ih (appendObj acc (.cons k v .nil))
            (nodupB_cons_tail _ _ (by simpa [JObj.keys] using h1))]
      · rw [appendObj_assoc]; rfl
      · intro k' hk'
        rw [keys_appendObj]
        simp only [List.mem_append, JObj.keys, List.mem_cons, List.not_mem_nil, or_false,
          not_or]
        refine ⟨h2 k' (by simp [JObj.keys, hk']), ?_⟩
        intro hcontra; subst hcontra; exact hknr hk'

/-- Folding bindings with pairwise-distinct keys into an empty dict is the
identity. -/
theorem pyDict_id (fs : JObj) (h : nodupB fs.keys = true) : pyDictAux fs .nil = fs := by
  have := pyDictAux_eq_append fs .nil h (by intro k _; simp [JObj.keys])
  simpa [appendObj] using this

/- ### Characterization of the sanitizer's field loop -/

/- ### Characterization of the sanitizer's field loop -/

theorem format_not_mem_schema_field_names : "format" ∉ schema_field_names := by decide

theorem format_not_mem_list_schema_field_names : "format" ∉ list_schema_field_names := by
  decide

theorem format_not_mem_dict_schema_field_names : "format" ∉ dict_schema_field_names := by
  decide

theorem sanitizeFields_cons (ct : Option JVal) (b : Bool) (k : String) (v : JVal)
    (rest : JObj) :
    sanitizeFields ct (.cons k v rest) b =
      match emitVal ct b k v with
      | some w => .cons (toSnakeCase k) w (sanitizeFields ct rest b)
      | none => sanitizeFields ct rest b := by
  simp only [sanitizeFields, emitVal, formatCond]
  by_cases h1 : toSnakeCase k ∈ schema_field_names
  · simp [h1]
  · by_cases h2 : toSnakeCase k ∈ list_schema_field_names
    · simp [h1, h2]
    · by_cases h3 : toSnakeCase k ∈ dict_schema_field_names ∧ ¬v = JVal.null
      · simp [h1, h2, h3]
      · by_cases h4 : toSnakeCase k = "format" ∧ truthy v = true
        · by_cases h5 : ((ct = some (.str "integer") ∨ ct = some (.str "number")) ∧
              (v = .str "int32" ∨ v = .str "int64")) ∨
              (ct = some (.str "string") ∧ (v = .str "date-time" ∨ v = .str "enum"))
          · simp [h1, h2, h3, h4, h5, format_not_mem_schema_field_names,
              format_not_mem_list_schema_field_names, format_not_mem_dict_schema_field_names]
          · simp [h1, h2, h3, h4, h5, format_not_mem_schema_field_names,
              format_not_mem_list_schema_field_names, format_not_mem_dict_schema_field_names]
        · by_cases h6 : toSnakeCase k ∈ supported_fields ∧ ¬v = JVal.null
          · rcases h6 with ⟨h6a, h6b⟩
            have h7 : toSnakeCase k ∉ dict_schema_field_names := fun hc => h3 ⟨hc, h6b⟩
            simp [h1, h2, h4, h6a, h6b, h7]
          · simp only [h1, h2, h3, h4, h6]
            simp [h1, h2, h3, h4, h6]

theorem keys_sanitizeFields_sublist (ct : Option JVal) (fs : JObj) (b : Bool) :
    List.Sublist (sanitizeFields ct fs b).keys (fs.keys.map toSnakeCase) := by
  induction fs with
  | nil => simp [sanitizeFields, JObj.keys]
  | cons k v rest ih =>
      rw [sanitizeFields_cons]
      cases hemit : emitVal ct b k v with
      | none =>
          simp only [JObj.keys, List.map_cons]
          exact ih.trans (List.sublist_cons_self _ _)
      | some w =>
          simp only [JObj.keys, List.map_cons]
          exact List.Sublist.cons₂ _ ih

theorem nodupB_keys_sanitizeFields (ct : Option JVal) (fs : JObj) (b : Bool)
    (h : nodupB (fs.keys.map toSnakeCase) = true) :
    nodupB (sanitizeFields ct fs b).keys = true := by
  rw [nodupB_iff]
  exact List.Nodup.sublist (keys_sanitizeFields_sublist ct fs b) ((nodupB_iff _).mp h)

theorem mem_recognized_of_mem_keys_sanitizeFields {ct : Option JVal} {fs : JObj}
    {b : Bool} {x : String} (h : x ∈ (sanitizeFields ct fs b).keys) :
    x ∈ recognizedKeys := by
  induction fs with
  | nil => simp [sanitizeFields, JObj.keys] at h
  | cons k v rest ih =>
      rw [sanitizeFields_cons] at h
      cases hemit : emitVal ct b k v with
      | none => rw [hemit] at h; exact ih h
      | some w =>
          rw [hemit] at h
          simp only [JObj.keys, List.mem_cons] at h
          rcases h with h | h


          · subst h
            revert hemit
            unfold emitVal
            by_cases h1 : toSnakeCase k ∈ schema_field_names
            · intro _; simp [recognizedKeys, h1]
            · by_cases h2 : toSnakeCase k ∈ list_schema_field_names
              · intro _; simp [recognizedKeys, h2]
              · by_cases h3 : toSnakeCase k ∈ dict_schema_field_names ∧ v ≠ JVal.null
                · intro _; simp [recognizedKeys, h3.1]
                · by_cases h4 : toSnakeCase k = "format" ∧ truthy v = true
                  · intro _; simp [recognizedKeys, h4.1]
                  · by_cases h6 : toSnakeCase k ∈ supported_fields ∧ v ≠ JVal.null
                    · intro _; simp [recognizedKeys, h6.1]
                    · intro hemit; simp [h1, h2, h3, h4, h6] at hemit
          · exact ih h

theorem lookup_sanitizeFields_of_forall_ne (ct : Option JVal) (fs : JObj) (b : Bool)
    (x : String) (h : ∀ k ∈ fs.keys, toSnakeCase k ≠ x) :
    (sanitizeFields ct fs b).lookupKey x = none := by
  induction fs with
  | nil => simp [sanitizeFields, JObj.lookupKey]
  | cons k v rest ih =>
      rw [sanitizeFields_cons]
      have hk : toSnakeCase k ≠ x := h k (by simp [JObj.keys])
      have hrest : ∀ k' ∈ rest.keys, toSnakeCase k' ≠ x := by
        intro k' hk'; exact h k' (by simp [JObj.keys, hk'])
      cases hemit : emitVal ct b k v with
      | none => exact ih hrest
      | some w =>
          rw [JObj.lookupKey, if_neg hk]
          exact ih hrest

theorem lookup_sanitizeFields_unique (ct : Option JVal) (fs : JObj) (b : Bool)
    {k x : String} {v : JVal}
    (hmem : (k, v) ∈ fs.entries) (hx : toSnakeCase k = x)
    (huniq : nodupB (fs.keys.map toSnakeCase) = true) :
    (sanitizeFields ct fs b).lookupKey x = emitVal ct b k v := by
  induction fs with
  | nil => simp [JObj.entries] at hmem
  | cons k0 v0 rest ih =>
      have hhead : toSnakeCase k0 ∉ rest.keys.map toSnakeCase :=
        nodupB_cons_head _ _ (by simpa [JObj.keys] using huniq)
      have htail : nodupB (rest.keys.map toSnakeCase) = true :=
        nodupB_cons_tail _ _ (by simpa [JObj.keys] using huniq)
      simp only [JObj.entries, List.mem_cons, Prod.mk.injEq] at hmem
      rw [sanitizeFields_cons]
      rcases hmem with ⟨rfl, rfl⟩ | hmem
      · cases hemit : emitVal ct b k v with
        | none =>
            refine lookup_sanitizeFields_of_forall_ne ct rest b x ?_
            intro k' hk' hcontra
            exact hhead (hx ▸ hcontra ▸ List.mem_map_of_mem toSnakeCase hk')
        | some w => rw [JObj.lookupKey, if_pos hx]
      · have hkr : k ∈ rest.keys := mem_keys_of_mem_entries _ _ _ hmem
        have hne : toSnakeCase k0 ≠ x := by
          intro hcontra
          exact hhead (hcontra ▸ hx ▸ List.mem_map_of_mem toSnakeCase hkr)
        cases hemit : emitVal ct b k0 v0 with
        | none => exact ih hmem htail
        | some w =>
            rw [JObj.lookupKey, if_neg hne]
            exact ih hmem htail

/- ### Characterization of `sanitize_schema_type_fixed` -/

theorem sstf_nil (b : Bool) :
    sanitize_schema_type_fixed .nil b = .cons "type" (.str "object") .nil := rfl

theorem keysSelfDisjoint_false_of_ne_nil (s : JObj) (hne : s ≠ .nil) :
    keysSelfDisjoint s = false := by
  cases hb : keysSelfDisjoint s
  · rfl
  · exact absurd ((keysSelfDisjoint_eq_true_iff s).mp hb) hne

theorem sstf_stable (s : JObj) (b : Bool) (v : JVal)
    (h : s.lookupKey "type" = some v) (harr : ∀ xs, v ≠ .arr xs)
    (hnull : v ≠ .str "null") :
    sanitize_schema_type_fixed s b = s := by
  have hd : keysSelfDisjoint s = false :=
    keysSelfDisjoint_false_of_lookup_some s _ _ h
  unfold sanitize_schema_type_fixed
  simp only [hd, Bool.and_false, Bool.false_eq_true, if_false]
  split
  next ts heq => rw [h] at heq; exact absurd (Option.some.inj heq) (harr ts)
  next heq => rw [h] at heq; exact absurd (Option.some.inj heq) hnull
  next => rfl

theorem sstf_none (s : JObj) (b : Bool)
    (h : s.lookupKey "type" = none) (hne : s ≠ .nil) :
    sanitize_schema_type_fixed s b = s := by
  have hd : keysSelfDisjoint s = false := keysSelfDisjoint_false_of_ne_nil s hne
  unfold sanitize_schema_type_fixed
  simp only [hd, Bool.and_false, Bool.false_eq_true, if_false]
  split
  next heq => rw [h] at heq; cases heq
  next heq => rw [h] at heq; cases heq
  next => rfl

theorem sstf_null_inside (s : JObj)
    (h : s.lookupKey "type" = some (.str "null")) :
    sanitize_schema_type_fixed s true = s := by
  have hd : keysSelfDisjoint s = false :=
    keysSelfDisjoint_false_of_lookup_some s _ _ h
  unfold sanitize_schema_type_fixed
  simp only [hd, Bool.and_false, Bool.false_eq_true, if_false]
  split
  next ts heq => rw [h] at heq; cases Option.some.inj heq
  next heq => simp
  next hno => rfl

theorem sstf_null_outside (s : JObj)
    (h : s.lookupKey "type" = some (.str "null")) :
    sanitize_schema_type_fixed s false =
      s.setKey "type" (.arr (.cons (.str "object") (.cons (.str "null") .nil))) := by
  have hd : keysSelfDisjoint s = false :=
    keysSelfDisjoint_false_of_lookup_some s _ _ h
  unfold sanitize_schema_type_fixed
  simp only [hd, Bool.and_false, Bool.false_eq_true, if_false]
  split
  next ts heq => rw [h] at heq; cases Option.some.inj heq
  next heq => simp
  next hno hns => exact absurd h hns

theorem sstf_arr (s : JObj) (b : Bool) (ts : JList)
    (h : s.lookupKey "type" = some (.arr ts)) :
    sanitize_schema_type_fixed s b =
      if scanNullable ts then
        s.setKey "type" (.arr (.cons (scanNonNull ts) (.cons (.str "null") .nil)))
      else s.setKey "type" (scanNonNull ts) := by
  have hd : keysSelfDisjoint s = false :=
    keysSelfDisjoint_false_of_lookup_some s _ _ h
  unfold sanitize_schema_type_fixed
  simp only [hd, Bool.and_false, Bool.false_eq_true, if_false]
  split
  next ts' heq =>
      rw [h] at heq
      cases Option.some.inj heq
      simp [scanNullable, scanNonNull]
  next heq => rw [h] at heq; cases Option.some.inj heq
  next hno hns => exact absurd h (hno ts)

/-- The node-level equation of the sanitizer. -/
theorem sanitize_obj (fs : JObj) (b : Bool) :
    sanitize_schema_formats_for_gemini_fixed (.obj fs) b =
      .obj (sanitize_schema_type_fixed
        (pyDictAux (sanitizeFields (fs.lookupKey "type") fs b) .nil) b) := rfl

/- ### The type-list loop on concrete shapes -/

theorem typeListScan_pair_first (T : String) (hT : T ≠ "null") :
    typeListScan (.cons (.str T) (.cons (.str "null") .nil)) false .null =
      (true, .str T) := by
  simp [typeListScan, truthy, hT]

theorem typeListScan_pair_second (T : String) (hT : T ≠ "null") :
    typeListScan (.cons (.str "null") (.cons (.str T) .nil)) false .null =
      (true, .str T) := by
  simp [typeListScan, truthy, hT]

theorem scanNullable_pair_first (T : String) (hT : T ≠ "null") :
    scanNullable (.cons (.str T) (.cons (.str "null") .nil)) = true := by
  simp [scanNullable, typeListScan_pair_first T hT]

theorem scanNullable_pair_second (T : String) (hT : T ≠ "null") :
    scanNullable (.cons (.str "null") (.cons (.str T) .nil)) = true := by
  simp [scanNullable, typeListScan_pair_second T hT]

theorem scanNonNull_pair_first (T : String) (hT : T ≠ "null") (hT2 : T ≠ "") :
    scanNonNull (.cons (.str T) (.cons (.str "null") .nil)) = .str T := by
  simp [scanNonNull, typeListScan_pair_first T hT, truthy, hT2]

theorem scanNonNull_pair_second (T : String) (hT : T ≠ "null") (hT2 : T ≠ "") :
    scanNonNull (.cons (.str "null") (.cons (.str T) .nil)) = .str T := by
  simp [scanNonNull, typeListScan_pair_second T hT, truthy, hT2]

theorem typeListScan_snd_of_truthy (ts : JList) :
    ∀ nb : Bool, ∀ t0 : JVal, truthy t0 = true → (typeListScan ts nb t0).2 = t0 := by
  induction ts with
  | nil => intro nb t0 _; rfl
  | cons t rest ih =>
      intro nb t0 h
      by_cases ht : t = .str "null"
      · simp [typeListScan, ht, ih _ _ h]
      · simp [typeListScan, ht, h, ih _ _ h]

theorem typeListScan_fst (ts : JList) :
    ∀ (nb : Bool) (t0 : JVal), (typeListScan ts nb t0).1 = (nb || containsNullTag ts) := by
  induction ts with
  | nil => intro nb t0; simp [typeListScan, containsNullTag]
  | cons t rest ih =>
      intro nb t0
      by_cases ht : t = .str "null"
      · simp [typeListScan, containsNullTag, ht, ih]
      · by_cases h0 : truthy t0
        · simp [typeListScan, containsNullTag, ht, h0, ih]
        · simp only [typeListScan, if_neg ht, Bool.not_eq_true] at h0 ⊢
          simp [h0, containsNullTag, ht, ih]

/- ### The modelled downstream step: key and lookup facts -/

theorem keys_fromJsonFields (fs : JObj) : (fromJsonFields fs).keys = fs.keys := by
  induction fs with
  | nil => rfl
  | cons k v rest ih =>
      rw [fromJsonFields]
      split_ifs <;> simp [JObj.keys, ih]

theorem lookup_fromJsonFields_other (fs : JObj) (x : String)
    (h1 : x ≠ "items") (h2 : x ≠ "any_of") (h3 : x ≠ "properties") :
    (fromJsonFields fs).lookupKey x = fs.lookupKey x := by
  induction fs with
  | nil => rfl
  | cons k v rest ih =>
      rw [fromJsonFields]
      by_cases hk : k = x
      · subst hk; rw [if_neg h1, if_neg h2, if_neg h3]; simp [JObj.lookupKey]
      · split_ifs <;> simp [JObj.lookupKey, hk, ih]

theorem lookup_fromJsonFields_any_of (fs : JObj) :
    (fromJsonFields fs).lookupKey "any_of" =
      (fs.lookupKey "any_of").map fromJsonAnyOfVal := by
  induction fs with
  | nil => rfl
  | cons k v rest ih =>
      rw [fromJsonFields]
      by_cases hk : k = "any_of"
      · subst hk
        rw [if_neg (by decide : ¬("any_of" = "items")), if_pos rfl]
        simp [JObj.lookupKey]
      · split_ifs <;> simp [JObj.lookupKey, hk, ih]

/- ### `overwriteAll` and `eraseKey` facts -/

theorem lookup_overwriteAll_not_mem (annots : JObj) :
    ∀ (base : JObj) (x : String), x ∉ annots.keys →
      (overwriteAll base annots).lookupKey x = base.lookupKey x := by
  induction annots with
  | nil => intro base x _; rfl
  | cons k v rest ih =>
      intro base x h
      simp only [JObj.keys, List.mem_cons, not_or] at h
      rw [overwriteAll, ih _ _ h.2]
      exact lookupKey_setKey_ne base v (fun hc => h.1 hc.symm)

theorem mem_keys_setKey (s : JObj) (k : String) (v : JVal) (x : String)
    (h : x ∈ (s.setKey k v).keys) : x ∈ s.keys ∨ x = k := by
  rw [keys_setKey] at h
  by_cases hm : k ∈ s.keys
  · rw [if_pos hm] at h; exact Or.inl h
  · rw [if_neg hm] at h
    rcases List.mem_append.mp h with h | h
    · exact Or.inl h
    · simp at h; exact Or.inr h

theorem mem_keys_overwriteAll (annots : JObj) :
    ∀ (base : JObj) (x : String), x ∈ (overwriteAll base annots).keys →
      x ∈ base.keys ∨ x ∈ annots.keys := by
  induction annots with
  | nil => intro base x h; exact Or.inl h
  | cons k v rest ih =>
      intro base x h
      rw [overwriteAll] at h
      rcases ih _ _ h with h' | h'
      · rcases mem_keys_setKey _ _ _ _ h' with h'' | h''
        · exact Or.inl h''
        · exact Or.inr (by simp [JObj.keys, h''])
      · exact Or.inr (by simp [JObj.keys, h'])

theorem lookup_eraseKey_ne (s : JObj) (y x : String) (h : x ≠ y) :
    (s.eraseKey y).lookupKey x = s.lookupKey x := by
  induction s with
  | nil => rfl
  | cons k v rest ih =>
      rw [JObj.eraseKey]
      by_cases hk : k = y
      · rw [if_pos hk, ih, JObj.lookupKey, if_neg (hk ▸ (fun hc => h hc.symm) : ¬k = x)]
      · rw [if_neg hk]
        by_cases hx : k = x
        · simp [JObj.lookupKey, hx]
        · simp [JObj.lookupKey, hx, ih]

theorem mem_keys_eraseKey (s : JObj) (y x : String)
    (h : x ∈ (s.eraseKey y).keys) : x ∈ s.keys ∧ x ≠ y := by
  rw [keys_eraseKey] at h
  have := List.of_mem_filter h
  refine ⟨List.mem_of_mem_filter h, by simpa using this⟩

/- ### Branch lemmas for `emitVal` -/

theorem emitVal_of_supported (ct : Option JVal) (b : Bool) (k : String) (v : JVal)
    (h1 : toSnakeCase k ∉ schema_field_names) (h2 : toSnakeCase k ∉ list_schema_field_names)
    (h3 : toSnakeCase k ∉ dict_schema_field_names) (h4 : toSnakeCase k ≠ "format")
    (h5 : toSnakeCase k ∈ supported_fields) (hv : v ≠ .null) :
    emitVal ct b k v = some v := by
  simp [emitVal, h1, h2, h3, h4, h5, hv]

theorem emitVal_of_any_of (ct : Option JVal) (b : Bool) (k : String) (v : JVal)
    (h1 : toSnakeCase k ∉ schema_field_names) (h2 : toSnakeCase k ∈ list_schema_field_names) :
    emitVal ct b k v = some (sanitizeAnyOfVal v) := by
  simp [emitVal, h1, h2]

theorem emitVal_of_format (ct : Option JVal) (b : Bool) (k : String) (v : JVal)
    (hk : toSnakeCase k = "format") (htr : truthy v = true) :
    emitVal ct b k v = if formatCond ct v then some v else none := by
  simp [emitVal, hk, htr, format_not_mem_schema_field_names,
    format_not_mem_list_schema_field_names, format_not_mem_dict_schema_field_names]

/- ### `sanitize_schema_type_fixed` only touches the `"type"` binding -/

theorem lookup_sstf_ne_type (s : JObj) (b : Bool) (x : String) (hx : x ≠ "type") :
    (sanitize_schema_type_fixed s b).lookupKey x = s.lookupKey x := by
  have key : ∀ w : JVal, (s.setKey "type" w).lookupKey x = s.lookupKey x :=
    fun w => lookupKey_setKey_ne s w (fun hc => hx hc.symm)
  by_cases hs : s = .nil
  · subst hs
    rw [sstf_nil]
    simp [JObj.lookupKey, Ne.symm hx]
  · cases hl : s.lookupKey "type" with
    | none => rw [sstf_none s b hl hs]
    | some v =>
        cases v with
        | arr ts => rw [sstf_arr s b ts hl]; split <;> exact key _
        | str s0 =>
            by_cases h0 : s0 = "null"
            · subst h0
              cases b
              · rw [sstf_null_outside s hl]; exact key _
              · rw [sstf_null_inside s hl]
            · rw [sstf_stable s b _ hl (by intro xs h; cases h) (by simp [h0])]
        | int n =>
            rw [sstf_stable s b _ hl (by intro xs h; cases h) (by intro h; cases h)]
        | bool b0 =>
            rw [sstf_stable s b _ hl (by intro xs h; cases h) (by intro h; cases h)]
        | null =>
            rw [sstf_stable s b _ hl (by intro xs h; cases h) (by intro h; cases h)]
        | obj fs0 =>
            rw [sstf_stable s b _ hl (by intro xs h; cases h) (by intro h; cases h)]

theorem mem_keys_sstf (s : JObj) (b : Bool) (x : String)
    (h : x ∈ (sanitize_schema_type_fixed s b).keys) : x ∈ s.keys ∨ x = "type" := by
  have key : ∀ w : JVal, x ∈ (s.setKey "type" w).keys → x ∈ s.keys ∨ x = "type" :=
    fun w => mem_keys_setKey s "type" w x
  by_cases hs : s = .nil
  · subst hs
    rw [sstf_nil] at h
    simp only [JObj.keys, List.mem_cons, List.not_mem_nil, or_false] at h
    exact Or.inr h
  · cases hl : s.lookupKey "type" with
    | none => rw [sstf_none s b hl hs] at h; exact Or.inl h
    | some v =>
        cases v with
        | arr ts =>
            rw [sstf_arr s b ts hl] at h
            split at h <;> exact key _ h
        | str s0 =>
            by_cases h0 : s0 = "null"
            · subst h0
              cases b
              · rw [sstf_null_outside s hl] at h; exact key _ h
              · rw [sstf_null_inside s hl] at h; exact Or.inl h
            · rw [sstf_stable s b _ hl (by intro xs hc; cases hc) (by simp [h0])] at h
              exact Or.inl h
        | int n =>
            rw [sstf_stable s b _ hl (by intro xs hc; cases hc) (by intro hc; cases hc)] at h
            exact Or.inl h
        | bool b0 =>
            rw [sstf_stable s b _ hl (by intro xs hc; cases hc) (by intro hc; cases hc)] at h
            exact Or.inl h
        | null =>
            rw [sstf_stable s b _ hl (by intro xs hc; cases hc) (by intro hc; cases hc)] at h
            exact Or.inl h
        | obj fs0 =>
            rw [sstf_stable s b _ hl (by intro xs hc; cases hc) (by intro hc; cases hc)] at h
            exact Or.inl h

theorem mem_keys_pyDictAux (fs : JObj) :
    ∀ (acc : JObj) (x : String), x ∈ (pyDictAux fs acc).keys →
      x ∈ fs.keys ∨ x ∈ acc.keys := by
  induction fs with
  | nil => intro acc x h; exact Or.inr h
  | cons k v rest ih =>
      intro acc x h
      rw [pyDictAux] at h
      rcases ih _ _ h with h' | h'
      · exact Or.inl (by simp [JObj.keys, h'])
      · rcases mem_keys_setKey _ _ _ _ h' with h'' | h''
        · exact Or.inr h''
        · exact Or.inl (by simp [JObj.keys, h''])

/- ### `typeListCollapse` on concrete shapes -/

theorem typeListCollapse_pair (s : JObj) (t : JVal)
    (h : s.lookupKey "type" = some (.arr (.cons t (.cons (.str "null") .nil))))
    (ht : ¬t = .str "null") :
    typeListCollapse s = (s.setKey "type" t).setKey "nullable" (.bool true) := by
  unfold typeListCollapse
  split
  next t' heq =>
      rw [h] at heq
      obtain rfl : t = t' := by
        have := Option.some.inj heq
        cases this
        rfl
      rw [if_neg ht]
  next hno => exact absurd h (hno t)

theorem typeListCollapse_of_not_pair (s : JObj)
    (h : ∀ t : JVal, s.lookupKey "type" ≠ some (.arr (.cons t (.cons (.str "null") .nil)))) :
    typeListCollapse s = s := by
  unfold typeListCollapse
  split
  next t' heq => exact absurd heq (h t')
  next => rfl



theorem fromJson_obj_of_no_any_of (fs : JObj)
    (h : (fromJsonFields fs).lookupKey "any_of" = none) :
    schema_from_json_schema (.obj fs) = .obj (typeListCollapse (fromJsonFields fs)) := by
  rw [schema_from_json_schema, h]

theorem nodeField_obj (fs : JObj) (k : String) : nodeField (.obj fs) k = fs.lookupKey k := rfl

theorem nodeKeys_obj (fs : JObj) : nodeKeys (.obj fs) = fs.keys := rfl

/- ### Claim C3 -/

/-- C3 counterexample: on the input node `{type: ["string", "integer", "null"]}`
the sanitizer rewrites the `type` list to `["string", "null"]` and the full
pipeline outputs `{type: "string", nullable: true}` — the non-null tag
`"integer"` is dropped and no union node with two non-null alternatives is
produced, contradicting the claim. -/
theorem C3_counterexample :
    sanitize_schema_type_fixed
        (.cons "type" (.arr (.ofList [.str "string", .str "integer", .str "null"])) .nil)
        false =
      .cons "type" (.arr (.ofList [.str "string", .str "null"])) .nil ∧
    to_gemini_schema_fixed
        (.obj (.cons "type" (.arr (.ofList [.str "string", .str "integer", .str "null"])) .nil)) =
      .obj (.cons "type" (.str "string") (.cons "nullable" (.bool true) .nil)) :=
  ⟨by decide, by decide⟩

/-- C3 (amended): for every node whose `type` is a list starting with a
non-null tag `T1` and containing `"null"` (in particular a list of `"null"`
plus two or more other tags, in either order around the first non-null tag),
normalization keeps only the FIRST non-null tag: the `type` becomes the
two-element list `[T1, "null"]`; every other non-null tag is dropped rather
than preserved as a union alternative. -/
theorem C3_first_non_null_tag_only :
    (∀ (fs : JObj) (b : Bool) (T1 : String) (rest : JList),
        fs.lookupKey "type" = some (.arr (.cons (.str T1) rest)) →
        T1 ≠ "null" → T1 ≠ "" → containsNullTag rest = true →
        (sanitize_schema_type_fixed fs b).lookupKey "type" =
          some (.arr (.cons (.str T1) (.cons (.str "null") .nil)))) ∧
    (∀ (fs : JObj) (b : Bool) (T1 : String) (rest2 : JList),
        fs.lookupKey "type" = some (.arr (.cons (.str "null") (.cons (.str T1) rest2))) →
        T1 ≠ "null" → T1 ≠ "" →
        (sanitize_schema_type_fixed fs b).lookupKey "type" =
          some (.arr (.cons (.str T1) (.cons (.str "null") .nil)))) := by
  constructor
  · intro fs b T1 rest h hT1 hT1e hnull
    have hsnd : (typeListScan (.cons (.str T1) rest) false .null).2 = .str T1 := by
      rw [typeListScan, if_neg (by simp [hT1])]
      simp only [truthy, Bool.not_false, if_true]
      exact typeListScan_snd_of_truthy rest false _ (by simp [truthy, hT1e])
    have hfst : scanNullable (.cons (.str T1) rest) = true := by
      rw [scanNullable, typeListScan_fst]
      simp [containsNullTag, hT1, hnull]
    have hnn : scanNonNull (.cons (.str T1) rest) = .str T1 := by
      simp [scanNonNull, hsnd, truthy, hT1e]
    rw [sstf_arr fs b _ h]
    simp [hfst, hnn, lookupKey_setKey_self]
  · intro fs b T1 rest2 h hT1 hT1e
    have hsnd : (typeListScan (.cons (.str "null") (.cons (.str T1) rest2)) false .null).2 =
        .str T1 := by
      rw [typeListScan, if_pos rfl, typeListScan, if_neg (by simp [hT1])]
      simp only [truthy, Bool.not_false, if_true]
      exact typeListScan_snd_of_truthy rest2 true _ (by simp [truthy, hT1e])
    have hfst : scanNullable (.cons (.str "null") (.cons (.str T1) rest2)) = true := by
      rw [scanNullable, typeListScan_fst]
      simp [containsNullTag]
    have hnn : scanNonNull (.cons (.str "null") (.cons (.str T1) rest2)) = .str T1 := by
      simp [scanNonNull, hsnd, truthy, hT1e]
    rw [sstf_arr fs b _ h]
    simp [hfst, hnn, lookupKey_setKey_self]

/-- C3 witness: the amended claim applied to the concrete input
`{type: ["string", "integer", "null"]}`. -/
theorem C3_witness :
    (JObj.cons "type" (.arr (.cons (.str "string") (.cons (.str "integer")
        (.cons (.str "null") .nil)))) .nil).lookupKey "type" =
      some (.arr (.cons (.str "string") (JList.cons (.str "integer")
        (.cons (.str "null") .nil)))) ∧
    containsNullTag (.cons (.str "integer") (.cons (.str "null") .nil)) = true ∧
    (sanitize_schema_type_fixed
        (.cons "type" (.arr (.cons (.str "string") (.cons (.str "integer")
          (.cons (.str "null") .nil)))) .nil)
        false).lookupKey "type" =
      some (.arr (.cons (.str "string") (.cons (.str "null") .nil))) :=
  ⟨by decide, by decide,
    C3_first_non_null_tag_only.1 _ false "string"
      (.cons (.str "integer") (.cons (.str "null") .nil)) (by decide) (by decide) (by decide)
      (by decide)⟩

/- ### Claim C4 -/

/-- C4 counterexample: the node `{description: "d"}` has no `type`, no
`any_of` and no `properties`, yet normalization returns it unchanged — no
`type: "object"` is added, because the defaulting condition
(`schema.keys().isdisjoint(schema)`) only holds for a node that retains no
fields at all. -/
theorem C4_counterexample :
    sanitize_schema_formats_for_gemini_fixed
        (.obj (.cons "description" (.str "d") .nil)) false =
      .obj (.cons "description" (.str "d") .nil) ∧
    nodeField
        (sanitize_schema_formats_for_gemini_fixed
          (.obj (.cons "description" (.str "d") .nil)) false) "type" = none :=
  ⟨by decide, by decide⟩

/-- C4 (amended): normalization defaults `type` to `"object"` exactly for
nodes that retain no fields at all: the empty node, and more generally any
node all of whose fields are dropped by the allow-list filter.  A node that
carries a retained annotation key (such as `description` or `title`) is NOT
given a default `type`. -/
theorem C4_defaults_object_only_when_empty :
    (∀ b : Bool,
        sanitize_schema_formats_for_gemini_fixed (.obj .nil) b =
          .obj (.cons "type" (.str "object") .nil)) ∧
    (∀ (fs : JObj) (b : Bool),
        sanitizeFields (fs.lookupKey "type") fs b = .nil →
        sanitize_schema_formats_for_gemini_fixed (.obj fs) b =
          .obj (.cons "type" (.str "object") .nil)) := by
  constructor
  · intro b
    rw [sanitize_obj]
    exact congrArg JVal.obj (sstf_nil b)
  · intro fs b h
    rw [sanitize_obj, h]
    exact congrArg JVal.obj (sstf_nil b)

/-- C4 witness: the amended claim applied to the node `{banana: 1}`, whose
only field is unrecognized and dropped, leaving the empty dict that is then
defaulted to `{type: "object"}`. -/
theorem C4_witness :
    sanitizeFields ((JObj.cons "banana" (.int 1) .nil).lookupKey "type")
        (.cons "banana" (.int 1) .nil) false = .nil ∧
    sanitize_schema_formats_for_gemini_fixed (.obj (.cons "banana" (.int 1) .nil)) false =
      .obj (.cons "type" (.str "object") .nil) :=
  ⟨by decide, C4_defaults_object_only_when_empty.2 _ false (by decide)⟩

/- ### Claim C7 -/

/-- C7 counterexample: the input node `{type: "string", format: "email"}`
loses its `format` annotation — `format` is NOT kept regardless of the
node's type tag, but only when compatible with it
(`int32`/`int64` with `integer`/`number`, `date-time`/`enum` with
`string`). -/
theorem C7_counterexample :
    sanitize_schema_formats_for_gemini_fixed
        (.obj (.cons "type" (.str "string") (.cons "format" (.str "email") .nil))) false =
      .obj (.cons "type" (.str "string") .nil) := by decide

/-- C7 (amended): allow-listed annotation fields other than `format` pass
through normalization unchanged on the node they originated on (under the
snake-cased name); `format` is special-cased: a (truthy) format value is
kept exactly when it is compatible with the node's declared `type`
(`int32`/`int64` on `integer`/`number`, `date-time`/`enum` on `string`) and
is silently dropped otherwise. -/
theorem C7_annotations_pass_format_conditional :
    (∀ (fs : JObj) (b : Bool) (k : String) (v : JVal),
        nodupB (fs.keys.map toSnakeCase) = true →
        (k, v) ∈ fs.entries →
        toSnakeCase k ∉ schema_field_names →
        toSnakeCase k ∉ list_schema_field_names →
        toSnakeCase k ∉ dict_schema_field_names →
        toSnakeCase k ≠ "format" →
        toSnakeCase k ≠ "type" →
        toSnakeCase k ∈ supported_fields →
        v ≠ .null →
        nodeField (sanitize_schema_formats_for_gemini_fixed (.obj fs) b) (toSnakeCase k) =
          some v) ∧
    (∀ (fs : JObj) (b : Bool) (kf : String) (f : JVal),
        nodupB (fs.keys.map toSnakeCase) = true →
        (kf, f) ∈ fs.entries →
        toSnakeCase kf = "format" →
        truthy f = true →
        nodeField (sanitize_schema_formats_for_gemini_fixed (.obj fs) b) "format" =
          (if formatCond (fs.lookupKey "type") f then some f else none)) := by
  constructor
  · intro fs b k v hnd hmem h1 h2 h3 h4 h5 h6 hv
    rw [sanitize_obj, nodeField_obj]
    rw [lookup_sstf_ne_type _ _ _ h5]
    rw [pyDict_id _ (nodupB_keys_sanitizeFields _ _ _ hnd)]
    rw [lookup_sanitizeFields_unique _ _ _ hmem rfl hnd]
    exact emitVal_of_supported _ _ _ _ h1 h2 h3 h4 h6 hv
  · intro fs b kf f hnd hmem hk htr
    rw [sanitize_obj, nodeField_obj]
    rw [lookup_sstf_ne_type _ _ _ (by decide)]
    rw [pyDict_id _ (nodupB_keys_sanitizeFields _ _ _ hnd)]
    rw [lookup_sanitizeFields_unique _ _ _ hmem hk hnd]
    exact emitVal_of_format _ _ _ _ hk htr

/-- C7 witness: a `title` annotation on `{title: "Age", type: "string"}`
passes through unchanged, and `{type: "integer", format: "int32"}` keeps
its (compatible) format. -/
theorem C7_witness :
    nodeField
        (sanitize_schema_formats_for_gemini_fixed
          (.obj (.cons "title" (.str "Age") (.cons "type" (.str "string") .nil))) false)
        (toSnakeCase "title") = some (.str "Age") ∧
    nodeField
        (sanitize_schema_formats_for_gemini_fixed
          (.obj (.cons "type" (.str "integer") (.cons "format" (.str "int32") .nil))) false)
        "format" =
      (if formatCond ((JObj.cons "type" (.str "integer")
            (.cons "format" (.str "int32") .nil)).lookupKey "type") (.str "int32")
       then some (.str "int32") else none) :=
  ⟨C7_annotations_pass_format_conditional.1 _ false "title" (.str "Age") (by decide)
      (by decide) (by decide) (by decide) (by decide) (by decide) (by decide) (by decide)
      (by decide),
    C7_annotations_pass_format_conditional.2 _ false "format" (.str "int32") (by decide)
      (by decide) (by decide) (by decide)⟩

/- ### Claim C8 -/

/-- C8: every key of a normalized node belongs to the recognized allow-list
(the structural keys, `format`, and the supported annotation keys); fields
with unrecognized names are silently dropped and never cause an error — in
particular the unknown key `xCustomKey` simply disappears from the output. -/
theorem C8_unknown_keys_silently_dropped :
    (∀ (fs : JObj) (b : Bool) (x : String),
        x ∈ nodeKeys (sanitize_schema_formats_for_gemini_fixed (.obj fs) b) →
        x ∈ recognizedKeys) ∧
    sanitize_schema_formats_for_gemini_fixed
        (.obj (.cons "xCustomKey" (.int 7) (.cons "type" (.str "string") .nil))) false =
      .obj (.cons "type" (.str "string") .nil) := by
  constructor
  · intro fs b x h
    rw [sanitize_obj, nodeKeys_obj] at h
    rcases mem_keys_sstf _ _ _ h with h | h
    · rcases mem_keys_pyDictAux _ _ _ h with h | h
      · exact mem_recognized_of_mem_keys_sanitizeFields h
      · simp [JObj.keys] at h
    · subst h; decide
  · decide

/-- C8 witness: the key lemma applied to the node `{xCustomKey: 7,
type: "string"}` — its output's key `type` is recognized. -/
theorem C8_witness :
    "type" ∈ nodeKeys
        (sanitize_schema_formats_for_gemini_fixed
          (.obj (.cons "xCustomKey" (.int 7) (.cons "type" (.str "string") .nil))) false) ∧
    "type" ∈ recognizedKeys :=
  ⟨by decide,
    C8_unknown_keys_silently_dropped.1
      (.cons "xCustomKey" (.int 7) (.cons "type" (.str "string") .nil)) false "type"
      (by decide)⟩

/- ### Claim C10 -/

/-- C10: the bare null type is rewritten only outside unions.  A node whose
`type` slot holds the single tag `"null"` is rewritten to
`type = ["object", "null"]` when normalized outside any `any_of`
(`in_any_of = false`), and is preserved as `"null"` when normalized inside
one (`in_any_of = true`); the `any_of` alternatives of any node are
normalized with the inside-flag set, and the flag propagates unchanged into
`properties` and `items` — witnessed also on concrete nested trees, where a
null-typed node below an `any_of` alternative's `properties` is preserved
while the same node outside any union is rewritten. -/
theorem C10_bare_null_rewritten_only_outside_unions :
    (∀ (fs : JObj) (k : String),
        nodupB (fs.keys.map toSnakeCase) = true →
        (k, .str "null") ∈ fs.entries →
        toSnakeCase k = "type" →
        nodeField (sanitize_schema_formats_for_gemini_fixed (.obj fs) false) "type" =
          some (.arr (.cons (.str "object") (.cons (.str "null") .nil)))) ∧
    (∀ (fs : JObj) (k : String),
        nodupB (fs.keys.map toSnakeCase) = true →
        (k, .str "null") ∈ fs.entries →
        toSnakeCase k = "type" →
        nodeField (sanitize_schema_formats_for_gemini_fixed (.obj fs) true) "type" =
          some (.str "null")) ∧
    (∀ (fs : JObj) (b : Bool) (k : String) (xs : JList),
        nodupB (fs.keys.map toSnakeCase) = true →
        (k, .arr xs) ∈ fs.entries →
        toSnakeCase k = "any_of" →
        nodeField (sanitize_schema_formats_for_gemini_fixed (.obj fs) b) "any_of" =
          some (.arr (sanitizeAnyOfList xs))) ∧
    (∀ (v : JVal) (rest : JList),
        sanitizeAnyOfList (.cons v rest) =
          .cons (sanitize_schema_formats_for_gemini_fixed v true) (sanitizeAnyOfList rest)) ∧
    sanitize_schema_formats_for_gemini_fixed
        (.obj (.cons "anyOf" (.arr (.cons (.obj (.cons "properties"
          (.obj (.cons "x" (.obj (.cons "type" (.str "null") .nil)) .nil)) .nil)) .nil)) .nil))
        false =
      .obj (.cons "any_of" (.arr (.cons (.obj (.cons "properties"
        (.obj (.cons "x" (.obj (.cons "type" (.str "null") .nil)) .nil)) .nil)) .nil)) .nil) ∧
    sanitize_schema_formats_for_gemini_fixed
        (.obj (.cons "properties"
          (.obj (.cons "x" (.obj (.cons "type" (.str "null") .nil)) .nil)) .nil)) false =
      .obj (.cons "properties"
        (.obj (.cons "x" (.obj (.cons "type"
          (.arr (.cons (.str "object") (.cons (.str "null") .nil))) .nil)) .nil)) .nil) := by
  refine ⟨?_, ?_, ?_, ?_, by decide, by decide⟩
  · intro fs k hnd hmem hk
    rw [sanitize_obj, nodeField_obj]
    have hE : (sanitizeFields (fs.lookupKey "type") fs false).lookupKey "type" =
        some (.str "null") := by
      rw [lookup_sanitizeFields_unique _ _ _ hmem hk hnd]
      exact emitVal_of_supported _ _ _ _ (by rw [hk]; decide) (by rw [hk]; decide)
        (by rw [hk]; decide) (by rw [hk]; decide) (by rw [hk]; decide) (by decide)
    rw [pyDict_id _ (nodupB_keys_sanitizeFields _ _ _ hnd)]
    rw [sstf_null_outside _ hE]
    exact lookupKey_setKey_self _ _ _
  · intro fs k hnd hmem hk
    rw [sanitize_obj, nodeField_obj]
    have hE : (sanitizeFields (fs.lookupKey "type") fs true).lookupKey "type" =
        some (.str "null") := by
      rw [lookup_sanitizeFields_unique _ _ _ hmem hk hnd]
      exact emitVal_of_supported _ _ _ _ (by rw [hk]; decide) (by rw [hk]; decide)
        (by rw [hk]; decide) (by rw [hk]; decide) (by rw [hk]; decide) (by decide)
    rw [pyDict_id _ (nodupB_keys_sanitizeFields _ _ _ hnd)]
    rw [sstf_null_inside _ hE]
    exact hE
  · intro fs b k xs hnd hmem hk
    rw [sanitize_obj, nodeField_obj]
    rw [lookup_sstf_ne_type _ _ _ (by decide)]
    rw [pyDict_id _ (nodupB_keys_sanitizeFields _ _ _ hnd)]
    rw [lookup_sanitizeFields_unique _ _ _ hmem hk hnd]
    rw [emitVal_of_any_of _ _ _ _ (by rw [hk]; decide) (by rw [hk]; decide)]
    rfl
  · intro v rest; rfl

/-- C10 witness: the three universal parts applied to the concrete nodes
`{type: "null"}` (outside and inside a union context) and
`{anyOf: [{type: "null"}]}`. -/
theorem C10_witness :
    nodeField (sanitize_schema_formats_for_gemini_fixed
        (.obj (.cons "type" (.str "null") .nil)) false) "type" =
      some (.arr (.cons (.str "object") (.cons (.str "null") .nil))) ∧
    nodeField (sanitize_schema_formats_for_gemini_fixed
        (.obj (.cons "type" (.str "null") .nil)) true) "type" = some (.str "null") ∧
    nodeField (sanitize_schema_formats_for_gemini_fixed
        (.obj (.cons "anyOf" (.arr (.cons (.obj (.cons "type" (.str "null") .nil)) .nil)) .nil))
        false) "any_of" =
      some (.arr (sanitizeAnyOfList (.cons (.obj (.cons "type" (.str "null") .nil)) .nil))) :=
  ⟨C10_bare_null_rewritten_only_outside_unions.1 _ "type" (by decide) (by decide) (by decide),
    C10_bare_null_rewritten_only_outside_unions.2.1 _ "type" (by decide) (by decide)
      (by decide),
    C10_bare_null_rewritten_only_outside_unions.2.2.1 _ false "anyOf"
      (.cons (.obj (.cons "type" (.str "null") .nil)) .nil) (by decide) (by decide)
      (by decide)⟩

/- ### Claim C2 -/

/-- C2: for every node whose `type` field is a two-element list containing
`"null"` and exactly one other tag `T` (in either order), the normalization
pipeline yields a node whose `type` equals the single tag `T` (not a list)
with `nullable` set true.  (The in-`src` sanitizer reorders the list to
`[T, "null"]`; the spec-modelled downstream conversion collapses that list
to the single tag plus the `nullable` flag.) -/
theorem C2_two_element_type_list_collapses :
    ∀ (fs : JObj) (k T : String),
      nodupB (fs.keys.map toSnakeCase) = true →
      ((k, .arr (.cons (.str T) (.cons (.str "null") .nil))) ∈ fs.entries ∨
        (k, .arr (.cons (.str "null") (.cons (.str T) .nil))) ∈ fs.entries) →
      toSnakeCase k = "type" →
      T ≠ "null" → T ≠ "" →
      (∀ k' ∈ fs.keys, toSnakeCase k' ≠ "any_of") →
      nodeField (to_gemini_schema_fixed (.obj fs)) "type" = some (.str T) ∧
      nodeField (to_gemini_schema_fixed (.obj fs)) "nullable" = some (.bool true) := by
  intro fs k T hnd hmem hk hT hTe hany
  have hnemit : nodupB (sanitizeFields (fs.lookupKey "type") fs false).keys = true :=
    nodupB_keys_sanitizeFields _ _ _ hnd
  have hEany : (sanitizeFields (fs.lookupKey "type") fs false).lookupKey "any_of" = none :=
    lookup_sanitizeFields_of_forall_ne _ _ _ _ hany
  have hM : sanitize_schema_type_fixed
      (pyDictAux (sanitizeFields (fs.lookupKey "type") fs false) .nil) false =
      (sanitizeFields (fs.lookupKey "type") fs false).setKey "type"
        (.arr (.cons (.str T) (.cons (.str "null") .nil))) := by
    rw [pyDict_id _ hnemit]
    rcases hmem with hmem | hmem
    · have hEtype : (sanitizeFields (fs.lookupKey "type") fs false).lookupKey "type" =
          some (.arr (.cons (.str T) (.cons (.str "null") .nil))) := by
        rw [lookup_sanitizeFields_unique _ _ _ hmem hk hnd]
        exact emitVal_of_supported _ _ _ _ (by rw [hk]; decide) (by rw [hk]; decide)
          (by rw [hk]; decide) (by rw [hk]; decide) (by rw [hk]; decide)
          (by intro hc; cases hc)
      rw [sstf_arr _ false _ hEtype]
      simp [scanNullable_pair_first T hT, scanNonNull_pair_first T hT hTe]
    · have hEtype : (sanitizeFields (fs.lookupKey "type") fs false).lookupKey "type" =
          some (.arr (.cons (.str "null") (.cons (.str T) .nil))) := by
        rw [lookup_sanitizeFields_unique _ _ _ hmem hk hnd]
        exact emitVal_of_supported _ _ _ _ (by rw [hk]; decide) (by rw [hk]; decide)
          (by rw [hk]; decide) (by rw [hk]; decide) (by rw [hk]; decide)
          (by intro hc; cases hc)
      rw [sstf_arr _ false _ hEtype]
      simp [scanNullable_pair_second T hT, scanNonNull_pair_second T hT hTe]
  rw [to_gemini_schema_fixed, sanitize_obj, hM]
  set M := (sanitizeFields (fs.lookupKey "type") fs false).setKey "type"
    (.arr (.cons (.str T) (.cons (.str "null") .nil))) with hMdef
  have hMany : M.lookupKey "any_of" = none := by
    rw [hMdef, lookupKey_setKey_ne _ _ (by decide)]
    exact hEany
  have hFany : (fromJsonFields M).lookupKey "any_of" = none := by
    rw [lookup_fromJsonFields_any_of, hMany]
    rfl
  rw [fromJson_obj_of_no_any_of _ hFany]
  have hFtype : (fromJsonFields M).lookupKey "type" =
      some (.arr (.cons (.str T) (.cons (.str "null") .nil))) := by
    rw [lookup_fromJsonFields_other _ _ (by decide) (by decide) (by decide), hMdef]
    exact lookupKey_setKey_self _ _ _
  rw [typeListCollapse_pair _ _ hFtype (by simp [hT])]
  constructor
  · rw [nodeField_obj, lookupKey_setKey_ne _ _ (by decide)]
    exact lookupKey_setKey_self _ _ _
  · rw [nodeField_obj]
    exact lookupKey_setKey_self _ _ _

/-- C2 witness: the claim applied to the concrete node
`{type: ["string", "null"]}`, which normalizes to
`{type: "string", nullable: true}`. -/
theorem C2_witness :
    nodeField (to_gemini_schema_fixed
        (.obj (.cons "type" (.arr (.cons (.str "string") (.cons (.str "null") .nil))) .nil)))
      "type" = some (.str "string") ∧
    nodeField (to_gemini_schema_fixed
        (.obj (.cons "type" (.arr (.cons (.str "string") (.cons (.str "null") .nil))) .nil)))
      "nullable" = some (.bool true) :=
  C2_two_element_type_list_collapses
    (.cons "type" (.arr (.cons (.str "string") (.cons (.str "null") .nil))) .nil)
    "type" "string" (by decide) (Or.inl (by decide)) (by decide) (by decide) (by decide)
    (by decide)

/- ### Helper lemmas for the union unwrap -/

theorem lookup_isSome_of_mem_keys (s : JObj) (x : String) (h : x ∈ s.keys) :
    ∃ v, s.lookupKey x = some v := by
  induction s with
  | nil => simp [JObj.keys] at h
  | cons k v rest ih =>
      by_cases hk : k = x
      · exact ⟨v, by simp [JObj.lookupKey, hk]⟩
      · simp only [JObj.keys, List.mem_cons] at h
        rcases h with h | h
        · exact absurd h.symm hk
        · obtain ⟨w, hw⟩ := ih h
          exact ⟨w, by simp [JObj.lookupKey, hk, hw]⟩

theorem mem_keys_typeListCollapse (s : JObj) (x : String)
    (h : x ∈ (typeListCollapse s).keys) : x ∈ s.keys ∨ x = "type" ∨ x = "nullable" := by
  unfold typeListCollapse at h
  split at h
  next t heq =>
      split at h
      · exact Or.inl h
      · rcases mem_keys_setKey _ _ _ _ h with h | h
        · rcases mem_keys_setKey _ _ _ _ h with h | h
          · exact Or.inl h
          · exact Or.inr (Or.inl h)
        · exact Or.inr (Or.inr h)
  next => exact Or.inl h

theorem fromJson_obj_unwrap_first (fs : JObj) (b : JVal)
    (h : (fromJsonFields fs).lookupKey "any_of" =
      some (.arr (.cons nullTypeNode (.cons b .nil))))
    (hb : b ≠ nullTypeNode) :
    schema_from_json_schema (.obj fs) =
      collapseNullable b ((fromJsonFields fs).eraseKey "any_of") := by
  rw [schema_from_json_schema, h]
  show (if nullTypeNode = nullTypeNode ∧ b ≠ nullTypeNode then
        collapseNullable b ((fromJsonFields fs).eraseKey "any_of")
      else if b = nullTypeNode ∧ nullTypeNode ≠ nullTypeNode then
        collapseNullable nullTypeNode ((fromJsonFields fs).eraseKey "any_of")
      else .obj (typeListCollapse (fromJsonFields fs))) = _
  rw [if_pos ⟨rfl, hb⟩]

theorem fromJson_obj_unwrap_second (fs : JObj) (a : JVal)
    (h : (fromJsonFields fs).lookupKey "any_of" =
      some (.arr (.cons a (.cons nullTypeNode .nil))))
    (ha : a ≠ nullTypeNode) :
    schema_from_json_schema (.obj fs) =
      collapseNullable a ((fromJsonFields fs).eraseKey "any_of") := by
  rw [schema_from_json_schema, h]
  show (if a = nullTypeNode ∧ nullTypeNode ≠ nullTypeNode then
        collapseNullable nullTypeNode ((fromJsonFields fs).eraseKey "any_of")
      else if nullTypeNode = nullTypeNode ∧ a ≠ nullTypeNode then
        collapseNullable a ((fromJsonFields fs).eraseKey "any_of")
      else .obj (typeListCollapse (fromJsonFields fs))) = _
  rw [if_neg (by simp), if_pos ⟨rfl, ha⟩]

/- ### Claim C1 -/

/-- C1: a two-element union node in which exactly one alternative is the
bare null-type node collapses, through the full pipeline (in-`src` fixed
sanitizer followed by the spec-modelled downstream conversion), to the
other alternative with `nullable` set true: the output node carries no
`any_of` key, carries `nullable: true`, and takes its `type` from the
normalized other alternative; and on the spec's concrete scenario
(a `properties.age` node `{anyOf: [{minimum: 0, type: integer},
{type: null}], description, title}`) the pipeline produces exactly
`{minimum: 0, type: integer, description, title, nullable: true}` with no
`any_of` key. -/
theorem C1_nullable_union_collapses :
    (∀ (fs af : JObj) (k : String),
        nodupB (fs.keys.map toSnakeCase) = true →
        ((k, .arr (.cons (.obj af) (.cons nullTypeNode .nil))) ∈ fs.entries ∨
          (k, .arr (.cons nullTypeNode (.cons (.obj af) .nil))) ∈ fs.entries) →
        toSnakeCase k = "any_of" →
        (∀ k' ∈ fs.keys, toSnakeCase k' ≠ "type") →
        (∀ k' ∈ af.keys, toSnakeCase k' ≠ "any_of") →
        schema_from_json_schema (sanitize_schema_formats_for_gemini_fixed (.obj af) true) ≠
          nullTypeNode →
        nodeField (to_gemini_schema_fixed (.obj fs)) "any_of" = none ∧
        nodeField (to_gemini_schema_fixed (.obj fs)) "nullable" = some (.bool true) ∧
        nodeField (to_gemini_schema_fixed (.obj fs)) "type" =
          nodeField (schema_from_json_schema
            (sanitize_schema_formats_for_gemini_fixed (.obj af) true)) "type") ∧
    to_gemini_schema_fixed (.obj (JObj.ofList [
        ("properties", .obj (JObj.ofList [("age", .obj (JObj.ofList [
          ("anyOf", .arr (JList.ofList [
            .obj (JObj.ofList [("minimum", .int 0), ("type", .str "integer")]),
            .obj (JObj.ofList [("type", .str "null")])])),
          ("description", .str "Age of the person"),
          ("title", .str "Age")]))])),
        ("type", .str "object")])) =
      .obj (JObj.ofList [
        ("properties", .obj (JObj.ofList [("age", .obj (JObj.ofList [
          ("minimum", .int 0), ("type", .str "integer"),
          ("description", .str "Age of the person"), ("title", .str "Age"),
          ("nullable", .bool true)]))])),
        ("type", .str "object")]) := by
  constructor
  · intro fs af k hnd hmem hk hTnn hAany hAnn
    have hnemit : nodupB (sanitizeFields (fs.lookupKey "type") fs false).keys = true :=
      nodupB_keys_sanitizeFields _ _ _ hnd
    -- the sanitized union node keeps its any_of binding, with the null
    -- alternative intact
    have hEany : ∀ alts : JList,
        ((k, JVal.arr alts) ∈ fs.entries) →
        (sanitizeFields (fs.lookupKey "type") fs false).lookupKey "any_of" =
          some (sanitizeAnyOfVal (.arr alts)) := by
      intro alts hm
      rw [lookup_sanitizeFields_unique _ _ _ hm hk hnd]
      rw [emitVal_of_any_of _ _ _ _ (by rw [hk]; decide) (by rw [hk]; decide)]
    have hEtype : (sanitizeFields (fs.lookupKey "type") fs false).lookupKey "type" = none :=
      lookup_sanitizeFields_of_forall_ne _ _ _ _ hTnn
    -- facts about the normalized alternative
    have hafnorm :
        sanitize_schema_formats_for_gemini_fixed (.obj af) true =
          .obj (sanitize_schema_type_fixed
            (pyDictAux (sanitizeFields (af.lookupKey "type") af true) .nil) true) :=
      sanitize_obj af true
    have hafkeys : ∀ x, x ∈ (sanitize_schema_type_fixed
        (pyDictAux (sanitizeFields (af.lookupKey "type") af true) .nil) true).keys →
        toSnakeCase x = x → x ≠ "type" → x ≠ "nullable" → x ∈ af.keys.map toSnakeCase := by
      intro x hx _ hxt _
      rcases mem_keys_sstf _ _ _ hx with hx | hx
      · rcases mem_keys_pyDictAux _ _ _ hx with hx | hx
        · exact (keys_sanitizeFields_sublist _ _ _).subset hx
        · simp [JObj.keys] at hx
      · exact absurd hx hxt
    have hafany : (fromJsonFields (sanitize_schema_type_fixed
        (pyDictAux (sanitizeFields (af.lookupKey "type") af true) .nil) true)).lookupKey
          "any_of" = none := by
      rw [lookup_fromJsonFields_any_of]
      have hnone : (sanitize_schema_type_fixed
          (pyDictAux (sanitizeFields (af.lookupKey "type") af true) .nil) true).lookupKey
            "any_of" = none := by
        refine lookupKey_eq_none_of_not_mem _ _ ?_
        intro hc
        have := hafkeys _ hc (by decide) (by decide) (by decide)
        obtain ⟨k', hk', hks⟩ := List.mem_map.mp this
        exact hAany k' hk' hks
      rw [hnone]; rfl
    have hA2 : schema_from_json_schema
        (sanitize_schema_formats_for_gemini_fixed (.obj af) true) =
        .obj (typeListCollapse (fromJsonFields (sanitize_schema_type_fixed
          (pyDictAux (sanitizeFields (af.lookupKey "type") af true) .nil) true))) := by
      rw [hafnorm]
      exact fromJson_obj_of_no_any_of _ hafany
    have hA2keys : ∀ x, x ∈ (typeListCollapse (fromJsonFields (sanitize_schema_type_fixed
        (pyDictAux (sanitizeFields (af.lookupKey "type") af true) .nil) true))).keys →
        x = "any_of" → False := by
      intro x hx hxa
      subst hxa
      rcases mem_keys_typeListCollapse _ _ hx with hx | hx | hx
      · rw [keys_fromJsonFields] at hx
        have := hafkeys _ hx (by decide) (by decide) (by decide)
        obtain ⟨k', hk', hks⟩ := List.mem_map.mp this
        exact hAany k' hk' hks
      · exact absurd hx (by decide)
      · exact absurd hx (by decide)
    -- the sanitized union node as a whole
    have step : ∀ alts : JList,
        ((k, JVal.arr alts) ∈ fs.entries) →
        to_gemini_schema_fixed (.obj fs) =
          schema_from_json_schema
            (.obj (sanitizeFields (fs.lookupKey "type") fs false)) := by
      intro alts hm
      rw [to_gemini_schema_fixed, sanitize_obj, pyDict_id _ hnemit]
      rw [sstf_none _ false hEtype]
      intro hc
      rw [hc] at hEany
      have := hEany alts hm
      simp [JObj.lookupKey] at this
    -- dispatch on the position of the null alternative
    rcases hmem with hm | hm
    · have hout : to_gemini_schema_fixed (.obj fs) =
          collapseNullable
            (schema_from_json_schema (sanitize_schema_formats_for_gemini_fixed (.obj af) true))
            ((fromJsonFields (sanitizeFields (fs.lookupKey "type") fs false)).eraseKey
              "any_of") := by
        rw [step _ hm]
        refine fromJson_obj_unwrap_second _ _ ?_ hAnn
        rw [lookup_fromJsonFields_any_of, hEany _ hm]
        rfl
      rw [hout, hA2]
      rw [collapseNullable]
      refine ⟨?_, ?_, ?_⟩
      · rw [nodeField_obj, lookupKey_setKey_ne _ _ (by decide)]
        refine lookupKey_eq_none_of_not_mem _ _ ?_
        intro hc
        rcases mem_keys_overwriteAll _ _ _ hc with hc | hc
        · exact hA2keys _ hc rfl
        · exact absurd rfl (mem_keys_eraseKey _ _ _ hc).2
      · rw [nodeField_obj]
        exact lookupKey_setKey_self _ _ _
      · rw [nodeField_obj, nodeField_obj, lookupKey_setKey_ne _ _ (by decide)]
        refine lookup_overwriteAll_not_mem _ _ _ ?_
        intro hc
        have h1 := (mem_keys_eraseKey _ _ _ hc).1
        rw [keys_fromJsonFields] at h1
        have h2 := (keys_sanitizeFields_sublist _ _ _).subset h1
        obtain ⟨k', hk', hks⟩ := List.mem_map.mp h2
        exact hTnn k' hk' hks
    · have hout : to_gemini_schema_fixed (.obj fs) =
          collapseNullable
            (schema_from_json_schema (sanitize_schema_formats_for_gemini_fixed (.obj af) true))
            ((fromJsonFields (sanitizeFields (fs.lookupKey "type") fs false)).eraseKey
              "any_of") := by
        rw [step _ hm]
        refine fromJson_obj_unwrap_first _ _ ?_ hAnn
        rw [lookup_fromJsonFields_any_of, hEany _ hm]
        rfl
      rw [hout, hA2]
      rw [collapseNullable]
      refine ⟨?_, ?_, ?_⟩
      · rw [nodeField_obj, lookupKey_setKey_ne _ _ (by decide)]
        refine lookupKey_eq_none_of_not_mem _ _ ?_
        intro hc
        rcases mem_keys_overwriteAll _ _ _ hc with hc | hc
        · exact hA2keys _ hc rfl
        · exact absurd rfl (mem_keys_eraseKey _ _ _ hc).2
      · rw [nodeField_obj]
        exact lookupKey_setKey_self _ _ _
      · rw [nodeField_obj, nodeField_obj, lookupKey_setKey_ne _ _ (by decide)]
        refine lookup_overwriteAll_not_mem _ _ _ ?_
        intro hc
        have h1 := (mem_keys_eraseKey _ _ _ hc).1
        rw [keys_fromJsonFields] at h1
        have h2 := (keys_sanitizeFields_sublist _ _ _).subset h1
        obtain ⟨k', hk', hks⟩ := List.mem_map.mp h2
        exact hTnn k' hk' hks
  · decide

/-- C1 witness: the general unwrap statement applied to the concrete age
node of the spec scenario. -/
theorem C1_witness :
    nodeField (to_gemini_schema_fixed (.obj (JObj.cons "anyOf"
        (.arr (.cons (.obj (.cons "minimum" (.int 0) (.cons "type" (.str "integer") .nil)))
          (.cons nullTypeNode .nil)))
        (.cons "description" (.str "Age of the person")
          (.cons "title" (.str "Age") .nil))))) "any_of" = none ∧
    nodeField (to_gemini_schema_fixed (.obj (JObj.cons "anyOf"
        (.arr (.cons (.obj (.cons "minimum" (.int 0) (.cons "type" (.str "integer") .nil)))
          (.cons nullTypeNode .nil)))
        (.cons "description" (.str "Age of the person")
          (.cons "title" (.str "Age") .nil))))) "nullable" = some (.bool true) ∧
    nodeField (to_gemini_schema_fixed (.obj (JObj.cons "anyOf"
        (.arr (.cons (.obj (.cons "minimum" (.int 0) (.cons "type" (.str "integer") .nil)))
          (.cons nullTypeNode .nil)))
        (.cons "description" (.str "Age of the person")
          (.cons "title" (.str "Age") .nil))))) "type" =
      nodeField (schema_from_json_schema (sanitize_schema_formats_for_gemini_fixed
        (.obj (.cons "minimum" (.int 0) (.cons "type" (.str "integer") .nil))) true)) "type" :=
  C1_nullable_union_collapses.1
    (JObj.cons "anyOf"
      (.arr (.cons (.obj (.cons "minimum" (.int 0) (.cons "type" (.str "integer") .nil)))
        (.cons nullTypeNode .nil)))
      (.cons "description" (.str "Age of the person") (.cons "title" (.str "Age") .nil)))
    (.cons "minimum" (.int 0) (.cons "type" (.str "integer") .nil))
    "anyOf" (by decide) (Or.inl (by decide)) (by decide) (by decide) (by decide) (by decide)

/- ### Snake-casing is idempotent -/

theorem isUpperA_lowerAscii (c : Char) : isUpperA (lowerAscii c) = false := by
  unfold lowerAscii
  cases hf : upperLower.find? (fun p => p.1 = c) with
  | none =>
      have hall := List.find?_eq_none.mp hf
      unfold isUpperA
      rw [List.any_eq_false]
      intro p hp
      simpa using hall p hp
  | some p =>
      have hmem : p ∈ upperLower := List.mem_of_find?_eq_some hf
      have : ∀ q ∈ upperLower, isUpperA q.2 = false := by decide
      exact this p hmem

theorem lowerAscii_of_not_upper (c : Char) (h : isUpperA c = false) :
    lowerAscii c = c := by
  unfold lowerAscii
  cases hf : upperLower.find? (fun p => p.1 = c) with
  | none => rfl
  | some p =>
      have hmem : p ∈ upperLower := List.mem_of_find?_eq_some hf
      have hp : p.1 = c := by simpa using List.find?_some hf
      unfold isUpperA at h
      rw [List.any_eq_false] at h
      have := h p hmem
      simp [hp] at this

theorem snakeChars_no_upper (l : List Char) :
    ∀ (p : Option Char) (c : Char), c ∈ snakeChars p l → isUpperA c = false := by
  induction l with
  | nil => intro p c h; simp [snakeChars] at h
  | cons c0 cs ih =>
      intro p c h
      simp only [snakeChars] at h
      rcases List.mem_append.mp h with h | h
      · split at h <;> simp only [List.mem_cons, List.not_mem_nil, or_false] at h
        · rcases h with h | h
          · subst h; decide
          · subst h; exact isUpperA_lowerAscii c0
        · subst h; exact isUpperA_lowerAscii c0
      · exact ih _ _ h

theorem snakeChars_fixpoint (l : List Char) :
    ∀ p : Option Char, (∀ c ∈ l, isUpperA c = false) → snakeChars p l = l := by
  induction l with
  | nil => intro p _; rfl
  | cons c0 cs ih =>
      intro p h
      have hc0 : isUpperA c0 = false := h c0 (by simp)
      simp only [snakeChars, hc0]
      simp only [Bool.false_and, if_false]
      rw [lowerAscii_of_not_upper c0 hc0, ih _ (fun c hc => h c (by simp [hc]))]
      rfl

theorem toSnakeCase_idem (s : String) : toSnakeCase (toSnakeCase s) = toSnakeCase s := by
  unfold toSnakeCase
  exact congrArg String.mk (snakeChars_fixpoint _ none (snakeChars_no_upper _ none))

/- ### Small helpers for type-sanitizer idempotence -/

theorem setKey_setKey (s : JObj) (k : String) (v w : JVal) :
    (s.setKey k v).setKey k w = s.setKey k w := by
  induction s with
  | nil => simp [JObj.setKey]
  | cons k' v' rest ih =>
      by_cases h : k' = k
      · simp [JObj.setKey, h]
      · simp [JObj.setKey, h, ih]

theorem nodupB_keys_setKey (s : JObj) (k : String) (v : JVal)
    (h : nodupB s.keys = true) : nodupB (s.setKey k v).keys = true := by
  rw [keys_setKey]
  by_cases hm : k ∈ s.keys
  · rw [if_pos hm]; exact h
  · rw [if_neg hm, nodupB_iff]
    rw [nodupB_iff] at h
    simp [List.nodup_append, h, hm]

theorem nodupB_keys_sstf (s : JObj) (b : Bool)
    (h : nodupB s.keys = true) : nodupB (sanitize_schema_type_fixed s b).keys = true := by
  by_cases hs : s = .nil
  · subst hs; rw [sstf_nil]; decide
  · cases hl : s.lookupKey "type" with
    | none => rw [sstf_none s b hl hs]; exact h
    | some v =>
        cases v with
        | arr ts =>
            rw [sstf_arr s b ts hl]
            split <;> exact nodupB_keys_setKey _ _ _ h
        | str s0 =>
            by_cases h0 : s0 = "null"
            · subst h0
              cases b
              · rw [sstf_null_outside s hl]; exact nodupB_keys_setKey _ _ _ h
              · rw [sstf_null_inside s hl]; exact h
            · rw [sstf_stable s b _ hl (by intro xs hc; cases hc) (by simp [h0])]; exact h
        | int n =>
            rw [sstf_stable s b _ hl (by intro xs hc; cases hc) (by intro hc; cases hc)]
            exact h
        | bool b0 =>
            rw [sstf_stable s b _ hl (by intro xs hc; cases hc) (by intro hc; cases hc)]
            exact h
        | null =>
            rw [sstf_stable s b _ hl (by intro xs hc; cases hc) (by intro hc; cases hc)]
            exact h
        | obj fs0 =>
            rw [sstf_stable s b _ hl (by intro xs hc; cases hc) (by intro hc; cases hc)]
            exact h

theorem scanNonNull_ne_null (ts : JList) : scanNonNull ts ≠ .null := by
  unfold scanNonNull
  split
  · intro hc; cases hc
  · next hfalse =>
      intro hc
      rw [hc] at hfalse
      simp [truthy] at hfalse

theorem typeListScan_str_inv (ts : JList) :
    ∀ (nb : Bool) (t0 : JVal), allStrTags ts = true →
      (t0 = .null ∨ ∃ s0, t0 = .str s0 ∧ s0 ≠ "null") →
      ((typeListScan ts nb t0).2 = .null ∨
        ∃ s0, (typeListScan ts nb t0).2 = .str s0 ∧ s0 ≠ "null") := by
  induction ts with
  | nil => intro nb t0 _ h0; exact h0
  | cons t rest ih =>
      intro nb t0 hall h0
      simp only [allStrTags, Bool.and_eq_true] at hall
      obtain ⟨hstr, hrest⟩ := hall
      by_cases ht : t = .str "null"
      · rw [typeListScan, if_pos ht]
        exact ih _ _ hrest h0
      · rw [typeListScan, if_neg ht]
        by_cases h0t : truthy t0 = true
        · rw [if_neg (by simp [h0t])]
          exact ih _ _ hrest h0
        · rw [if_pos (by simp [h0t])]
          refine ih _ _ hrest ?_
          cases t with
          | str s1 =>
              refine Or.inr ⟨s1, rfl, ?_⟩
              intro hc; subst hc; exact ht rfl
          | int n => simp at hstr
          | bool b1 => simp at hstr
          | null => simp at hstr
          | arr xs => simp at hstr
          | obj es => simp at hstr

theorem scanNonNull_str (ts : JList) (h : allStrTags ts = true) :
    ∃ s0, scanNonNull ts = .str s0 ∧ s0 ≠ "null" ∧ s0 ≠ "" := by
  unfold scanNonNull
  rcases typeListScan_str_inv ts false .null h (Or.inl rfl) with hn | ⟨s0, hs0, hs0n⟩
  · rw [hn]
    exact ⟨"object", by simp [truthy], by decide, by decide⟩
  · rw [hs0]
    by_cases he : s0 = ""
    · subst he
      exact ⟨"object", by simp [truthy], by decide, by decide⟩
    · refine ⟨s0, by simp [truthy, he], hs0n, he⟩

theorem typeShape_lookup_sanitizeFields (ct : Option JVal) (fs : JObj) (b : Bool)
    (hwf : wfFields fs = true) :
    ∀ v, (sanitizeFields ct fs b).lookupKey "type" = some v → typeShapeOK v = true := by
  induction fs with
  | nil => intro v hv; simp [sanitizeFields, JObj.lookupKey] at hv
  | cons k w rest ih =>
      intro v hv
      have h' := hwf
      rw [wfFields, Bool.and_eq_true] at h'
      obtain ⟨hentry, hrest⟩ := h'
      rw [sanitizeFields_cons] at hv
      cases hemit : emitVal ct b k w with
      | none => rw [hemit] at hv; exact ih hrest _ hv
      | some w' =>
          rw [hemit] at hv
          by_cases hk : toSnakeCase k = "type"
          · rw [JObj.lookupKey, if_pos hk] at hv
            obtain rfl := Option.some.inj hv
            have hw' : w' = w := by
              rw [emitVal, hk] at hemit
              rw [if_neg (by decide), if_neg (by decide),
                if_neg (fun hc => absurd hc.1 (by decide)),
                if_neg (fun hc => absurd hc.1 (by decide))] at hemit
              split at hemit
              · exact (Option.some.inj hemit).symm
              · cases hemit
            subst hw'
            rw [hk] at hentry
            rw [if_neg (by decide), if_neg (by decide), if_neg (by decide),
              if_pos rfl] at hentry
            exact hentry
          · rw [JObj.lookupKey, if_neg hk] at hv
            exact ih hrest _ hv

theorem T_idem (s : JObj) (b : Bool)
    (h : ∀ v, s.lookupKey "type" = some v → typeShapeOK v = true) :
    sanitize_schema_type_fixed (sanitize_schema_type_fixed s b) b =
      sanitize_schema_type_fixed s b := by
  by_cases hs : s = .nil
  · subst hs
    rw [sstf_nil]
    exact sstf_stable _ _ (.str "object") (by decide) (by intro xs hc; cases hc) (by decide)
  · cases hl : s.lookupKey "type" with
    | none =>
        rw [sstf_none s b hl hs]
        exact sstf_none s b hl hs
    | some v =>
        cases v with
        | arr ts =>
            have hshape := h _ hl
            rw [typeShapeOK] at hshape
            obtain ⟨s0, hs0, hs0n, hs0e⟩ := scanNonNull_str ts hshape
            rw [sstf_arr s b ts hl]
            by_cases hnb : scanNullable ts = true
            · rw [if_pos hnb]
              have hl2 : (s.setKey "type"
                  (.arr (.cons (scanNonNull ts) (.cons (.str "null") .nil)))).lookupKey
                    "type" =
                  some (.arr (.cons (.str s0) (.cons (.str "null") .nil))) := by
                rw [lookupKey_setKey_self, hs0]
              rw [sstf_arr _ b _ hl2]
              rw [if_pos (scanNullable_pair_first s0 hs0n)]
              rw [scanNonNull_pair_first s0 hs0n hs0e, setKey_setKey, hs0]
            · rw [if_neg hnb]
              have hl2 : (s.setKey "type" (scanNonNull ts)).lookupKey "type" =
                  some (.str s0) := by
                rw [lookupKey_setKey_self, hs0]
              exact sstf_stable _ _ _ hl2 (by intro xs hc; cases hc) (by simp [hs0n])
        | str s0 =>
            by_cases h0 : s0 = "null"
            · subst h0
              cases b
              · rw [sstf_null_outside s hl]
                have hl2 : (s.setKey "type"
                    (.arr (.cons (.str "object") (.cons (.str "null") .nil)))).lookupKey
                      "type" =
                    some (.arr (.cons (.str "object") (.cons (.str "null") .nil))) :=
                  lookupKey_setKey_self _ _ _
                rw [sstf_arr _ false _ hl2]
                rw [if_pos (scanNullable_pair_first "object" (by decide))]
                rw [scanNonNull_pair_first "object" (by decide) (by decide), setKey_setKey]
              · rw [sstf_null_inside s hl]
                exact sstf_null_inside s hl
            · rw [sstf_stable s b _ hl (by intro xs hc; cases hc) (by simp [h0])]
              exact sstf_stable s b _ hl (by intro xs hc; cases hc) (by simp [h0])
        | int n =>
            rw [sstf_stable s b _ hl (by intro xs hc; cases hc) (by intro hc; cases hc)]
            exact sstf_stable s b _ hl (by intro xs hc; cases hc) (by intro hc; cases hc)
        | bool b0 =>
            rw [sstf_stable s b _ hl (by intro xs hc; cases hc) (by intro hc; cases hc)]
            exact sstf_stable s b _ hl (by intro xs hc; cases hc) (by intro hc; cases hc)
        | null =>
            rw [sstf_stable s b _ hl (by intro xs hc; cases hc) (by intro hc; cases hc)]
            exact sstf_stable s b _ hl (by intro xs hc; cases hc) (by intro hc; cases hc)
        | obj fs0 =>
            rw [sstf_stable s b _ hl (by intro xs hc; cases hc) (by intro hc; cases hc)]
            exact sstf_stable s b _ hl (by intro xs hc; cases hc) (by intro hc; cases hc)


theorem emitVal_of_items (ct : Option JVal) (b : Bool) (k : String) (v : JVal)
    (h1 : toSnakeCase k ∈ schema_field_names) :
    emitVal ct b k v = some (sanitize_schema_formats_for_gemini_fixed v b) := by
  simp [emitVal, h1]

theorem emitVal_of_dict (ct : Option JVal) (b : Bool) (k : String) (v : JVal)
    (h1 : toSnakeCase k ∉ schema_field_names) (h2 : toSnakeCase k ∉ list_schema_field_names)
    (h3 : toSnakeCase k ∈ dict_schema_field_names) (hv : v ≠ .null) :
    emitVal ct b k v = some (sanitizePropsVal v b) := by
  simp [emitVal, h1, h2, h3, hv]

theorem stableFields_setKey_type (fs : JObj) (b : Bool) (ct : Option JVal) (w : JVal)
    (hw : w ≠ .null) (h : stableFields fs b ct = true) :
    stableFields (fs.setKey "type" w) b ct = true := by
  induction fs with
  | nil =>
      show stableFields (.cons "type" w .nil) b ct = true
      rw [stableFields]
      simp only [Bool.and_eq_true]
      refine ⟨⟨by decide, ?_⟩, by rw [stableFields]⟩
      rw [if_neg (by decide), if_neg (by decide), if_neg (by decide), if_neg (by decide)]
      simp [hw, (by decide : ("type" : String) ∈ supported_fields)]
  | cons k v rest ih =>
      rw [stableFields] at h
      simp only [Bool.and_eq_true] at h
      obtain ⟨⟨hsk, hbr⟩, hrest⟩ := h
      by_cases hk : k = "type"
      · have hset : (JObj.cons k v rest).setKey "type" w = .cons k w rest := by
          rw [JObj.setKey, if_pos hk]
        rw [hset, stableFields]
        simp only [Bool.and_eq_true]
        refine ⟨⟨hsk, ?_⟩, hrest⟩
        subst hk
        rw [if_neg (by decide), if_neg (by decide), if_neg (by decide), if_neg (by decide)]
        simp [hw, (by decide : ("type" : String) ∈ supported_fields)]
      · have hset : (JObj.cons k v rest).setKey "type" w =
            .cons k v (rest.setKey "type" w) := by
          rw [JObj.setKey, if_neg hk]
        rw [hset, stableFields]
        simp only [Bool.and_eq_true]
        exact ⟨⟨hsk, hbr⟩, ih hrest⟩

mutual

theorem stable_sanitize (v : JVal) (b : Bool) (h : stableVal v b = true) :
    sanitize_schema_formats_for_gemini_fixed v b = v :=
  match v, h with
  | .obj fs, h => by
      rw [stableVal] at h
      simp only [Bool.and_eq_true] at h
      obtain ⟨⟨hnd, hsf⟩, hT⟩ := h
      rw [sanitize_obj]
      rw [stable_fields_sanitize fs b (fs.lookupKey "type") hsf]
      rw [pyDict_id fs hnd]
      rw [of_decide_eq_true hT]
  | .str s, h => by simp [stableVal] at h
  | .int n, h => by simp [stableVal] at h
  | .bool b0, h => by simp [stableVal] at h
  | .null, h => by simp [stableVal] at h
  | .arr xs, h => by simp [stableVal] at h
termination_by structural v

theorem stable_fields_sanitize (fs : JObj) (b : Bool) (ct : Option JVal)
    (h : stableFields fs b ct = true) : sanitizeFields ct fs b = fs :=
  match fs, h with
  | .nil, _ => rfl
  | .cons k w rest, h => by
      rw [stableFields] at h
      simp only [Bool.and_eq_true] at h
      obtain ⟨⟨hsk, hbr⟩, hrest⟩ := h
      have hskk : toSnakeCase k = k := of_decide_eq_true hsk
      rw [sanitizeFields_cons]
      by_cases h1 : k ∈ schema_field_names
      · rw [if_pos ((contains_eq_true_iff _ _).mpr h1)] at hbr
        rw [emitVal_of_items ct b k w (by rw [hskk]; exact h1)]
        rw [hskk, stable_sanitize w b hbr,
          stable_fields_sanitize rest b ct hrest]
      · rw [if_neg (fun hc => h1 ((contains_eq_true_iff _ _).mp hc))] at hbr
        by_cases h2 : k ∈ list_schema_field_names
        · rw [if_pos ((contains_eq_true_iff _ _).mpr h2)] at hbr
          rw [emitVal_of_any_of ct b k w (by rw [hskk]; exact h1) (by rw [hskk]; exact h2)]
          have hv : sanitizeAnyOfVal w = w := by
            cases w with
            | arr xs =>
                rw [stableAnyOf] at hbr
                rw [sanitizeAnyOfVal]
                exact congrArg JVal.arr (stable_list_sanitize xs hbr)
            | str s => rfl
            | int n => rfl
            | bool b0 => rfl
            | null => rfl
            | obj es => rfl
          rw [hskk, hv, stable_fields_sanitize rest b ct hrest]
        · rw [if_neg (fun hc => h2 ((contains_eq_true_iff _ _).mp hc))] at hbr
          by_cases h3 : k ∈ dict_schema_field_names
          · rw [if_pos ((contains_eq_true_iff _ _).mpr h3), Bool.and_eq_true] at hbr
            obtain ⟨hwn, hmat⟩ := hbr
            have hwn' : w ≠ .null := of_decide_eq_true hwn
            rw [emitVal_of_dict ct b k w (by rw [hskk]; exact h1) (by rw [hskk]; exact h2)
              (by rw [hskk]; exact h3) hwn']
            have hv : sanitizePropsVal w b = w := by
              cases w with
              | obj es =>
                  rw [stableDict] at hmat
                  rw [sanitizePropsVal]
                  exact congrArg JVal.obj (stable_props_sanitize es b hmat)
              | str s => rfl
              | int n => rfl
              | bool b0 => rfl
              | null => rfl
              | arr xs => rfl
            rw [hskk, hv, stable_fields_sanitize rest b ct hrest]
          · rw [if_neg (fun hc => h3 ((contains_eq_true_iff _ _).mp hc))] at hbr
            by_cases h4 : k = "format"
            · rw [if_pos h4, Bool.and_eq_true] at hbr
              obtain ⟨hwn, hor⟩ := hbr
              have hwn' : w ≠ .null := of_decide_eq_true hwn
              by_cases htr : truthy w = true
              · have hcond : formatCond ct w := by
                  rw [htr] at hor
                  simpa using hor
                rw [emitVal_of_format ct b k w (by rw [hskk]; exact h4) htr, if_pos hcond]
                rw [hskk, stable_fields_sanitize rest b ct hrest]
              · have he : emitVal ct b k w = some w := by
                  have hfalse : truthy w = false := by
                    cases htruthy : truthy w
                    · rfl
                    · exact absurd htruthy htr
                  subst h4
                  simp [emitVal, hskk, hfalse, hwn',
                    format_not_mem_schema_field_names,
                    format_not_mem_list_schema_field_names,
                    format_not_mem_dict_schema_field_names,
                    (by decide : ("format" : String) ∈ supported_fields)]
                rw [he, hskk, stable_fields_sanitize rest b ct hrest]
            · rw [if_neg h4, Bool.and_eq_true] at hbr
              obtain ⟨hsup, hwn⟩ := hbr
              have hwn' : w ≠ .null := of_decide_eq_true hwn
              have hsup' : k ∈ supported_fields := by
                rw [← contains_eq_true_iff]; exact hsup
              rw [emitVal_of_supported ct b k w (by rw [hskk]; exact h1)
                (by rw [hskk]; exact h2) (by rw [hskk]; exact h3)
                (by rw [hskk]; exact h4) (by rw [hskk]; exact hsup') hwn']
              rw [hskk, stable_fields_sanitize rest b ct hrest]
termination_by structural fs

theorem stable_list_sanitize (xs : JList) (h : stableList xs = true) :
    sanitizeAnyOfList xs = xs :=
  match xs, h with
  | .nil, _ => rfl
  | .cons v rest, h => by
      rw [stableList] at h
      simp only [Bool.and_eq_true] at h
      obtain ⟨hv, hrest⟩ := h
      rw [sanitizeAnyOfList, stable_sanitize v true hv, stable_list_sanitize rest hrest]
termination_by structural xs

theorem stable_props_sanitize (es : JObj) (b : Bool) (h : stableProps es b = true) :
    sanitizeProps es b = es :=
  match es, h with
  | .nil, _ => rfl
  | .cons k v rest, h => by
      rw [stableProps] at h
      simp only [Bool.and_eq_true] at h
      obtain ⟨hv, hrest⟩ := h
      rw [sanitizeProps, stable_sanitize v b hv, stable_props_sanitize rest b hrest]
termination_by structural es

end


theorem emitVal_null (ct : Option JVal) (b : Bool) (k : String)
    (h1 : toSnakeCase k ∉ schema_field_names)
    (h2 : toSnakeCase k ∉ list_schema_field_names) :
    emitVal ct b k .null = none := by
  simp [emitVal, h1, h2, truthy]

theorem emitVal_format_nontruthy (ct : Option JVal) (b : Bool) (k : String) (v : JVal)
    (h4 : toSnakeCase k = "format") (htr : truthy v = false) (hv : v ≠ .null) :
    emitVal ct b k v = some v := by
  simp [emitVal, h4, htr, hv, format_not_mem_schema_field_names,
    format_not_mem_list_schema_field_names, format_not_mem_dict_schema_field_names,
    (by decide : ("format" : String) ∈ supported_fields)]

theorem emitVal_unsupported (ct : Option JVal) (b : Bool) (k : String) (v : JVal)
    (h1 : toSnakeCase k ∉ schema_field_names)
    (h2 : toSnakeCase k ∉ list_schema_field_names)
    (h3 : toSnakeCase k ∉ dict_schema_field_names)
    (h4 : toSnakeCase k ≠ "format")
    (h5 : toSnakeCase k ∉ supported_fields) :
    emitVal ct b k v = none := by
  simp [emitVal, h1, h2, h3, h4, h5]

theorem sstf_cases (s : JObj) (b : Bool) :
    sanitize_schema_type_fixed s b = s ∨
    ∃ w, w ≠ JVal.null ∧ sanitize_schema_type_fixed s b = s.setKey "type" w := by
  by_cases hs : s = .nil
  · subst hs
    refine Or.inr ⟨.str "object", ?_, ?_⟩
    · intro hc; cases hc
    · rw [sstf_nil]
      rfl
  · cases hl : s.lookupKey "type" with
    | none => exact Or.inl (sstf_none s b hl hs)
    | some v =>
        cases v with
        | arr ts =>
            rw [sstf_arr s b ts hl]
            by_cases hnb : scanNullable ts = true
            · rw [if_pos hnb]
              refine Or.inr
                ⟨.arr (.cons (scanNonNull ts) (.cons (.str "null") .nil)), ?_, rfl⟩
              intro hc; cases hc
            · rw [if_neg hnb]
              exact Or.inr ⟨_, scanNonNull_ne_null ts, rfl⟩
        | str s0 =>
            by_cases h0 : s0 = "null"
            · subst h0
              cases b
              · rw [sstf_null_outside s hl]
                refine Or.inr
                  ⟨.arr (.cons (.str "object") (.cons (.str "null") .nil)), ?_, rfl⟩
                intro hc; cases hc
              · exact Or.inl (sstf_null_inside s hl)
            · exact Or.inl
                (sstf_stable s b _ hl (by intro xs hc; cases hc) (by simp [h0]))
        | int n =>
            exact Or.inl
              (sstf_stable s b _ hl (by intro xs hc; cases hc) (by intro hc; cases hc))
        | bool b0 =>
            exact Or.inl
              (sstf_stable s b _ hl (by intro xs hc; cases hc) (by intro hc; cases hc))
        | null =>
            exact Or.inl
              (sstf_stable s b _ hl (by intro xs hc; cases hc) (by intro hc; cases hc))
        | obj fs0 =>
            exact Or.inl
              (sstf_stable s b _ hl (by intro xs hc; cases hc) (by intro hc; cases hc))

mutual

theorem wf_sanitize_stable (v : JVal) (b : Bool) (h : wfVal v = true) :
    stableVal (sanitize_schema_formats_for_gemini_fixed v b) b = true :=
  match v, h with
  | .obj fs, h => by
      rw [wfVal, Bool.and_eq_true] at h
      obtain ⟨hnd, hwff⟩ := h
      rw [sanitize_obj]
      have hndE : nodupB (sanitizeFields (fs.lookupKey "type") fs b).keys = true :=
        nodupB_keys_sanitizeFields _ _ _ hnd
      rw [pyDict_id _ hndE]
      rw [stableVal]
      simp only [Bool.and_eq_true]
      refine ⟨⟨nodupB_keys_sstf _ _ hndE, ?_⟩,
        decide_eq_true (T_idem _ b (typeShape_lookup_sanitizeFields _ _ _ hwff))⟩
      have hct : ∀ f, formatCond (fs.lookupKey "type") f →
          formatCond ((sanitize_schema_type_fixed
            (sanitizeFields (fs.lookupKey "type") fs b) b).lookupKey "type") f := by
        intro f hf
        have hty : ∃ s0, fs.lookupKey "type" = some (.str s0) ∧ s0 ≠ "null" := by
          rcases hf with ⟨hc, _⟩ | ⟨hc, _⟩
          · rcases hc with hc | hc
            · exact ⟨"integer", hc, by decide⟩
            · exact ⟨"number", hc, by decide⟩
          · exact ⟨"string", hc, by decide⟩
        obtain ⟨s0, hl0, hs0n⟩ := hty
        have hmem : ("type", JVal.str s0) ∈ fs.entries :=
          lookupKey_some_mem_entries _ _ _ hl0
        have hE : (sanitizeFields (fs.lookupKey "type") fs b).lookupKey "type" =
            some (.str s0) := by
          rw [lookup_sanitizeFields_unique _ _ _ hmem (by decide) hnd]
          exact emitVal_of_supported _ _ _ _ (by decide) (by decide) (by decide)
            (by decide) (by decide) (by intro hc; cases hc)
        have hTE : sanitize_schema_type_fixed
            (sanitizeFields (fs.lookupKey "type") fs b) b =
            sanitizeFields (fs.lookupKey "type") fs b :=
          sstf_stable _ b _ hE (by intro xs hc; cases hc) (by simp [hs0n])
        rw [hTE, hE]
        rw [hl0] at hf
        exact hf
      have hst : stableFields (sanitizeFields (fs.lookupKey "type") fs b) b
          ((sanitize_schema_type_fixed
            (sanitizeFields (fs.lookupKey "type") fs b) b).lookupKey "type") = true :=
        wf_fields_emit_stable fs b _ _ hct hwff
      rcases sstf_cases (sanitizeFields (fs.lookupKey "type") fs b) b with
        hc | ⟨w, hwn, hc⟩
      · rw [hc] at hst ⊢
        exact hst
      · rw [hc] at hst ⊢
        exact stableFields_setKey_type _ _ _ _ hwn hst
  | .str s, h => by simp [wfVal] at h
  | .int n, h => by simp [wfVal] at h
  | .bool b0, h => by simp [wfVal] at h
  | .null, h => by simp [wfVal] at h
  | .arr xs, h => by simp [wfVal] at h
termination_by structural v

theorem wf_fields_emit_stable (fs : JObj) (b : Bool) (ct ct2 : Option JVal)
    (hct : ∀ f, formatCond ct f → formatCond ct2 f) (h : wfFields fs = true) :
    stableFields (sanitizeFields ct fs b) b ct2 = true :=
  match fs, h with
  | .nil, _ => rfl
  | .cons k w rest, h => by
      rw [wfFields, Bool.and_eq_true] at h
      obtain ⟨hentry, hrest⟩ := h
      have hrec : stableFields (sanitizeFields ct rest b) b ct2 = true :=
        wf_fields_emit_stable rest b ct ct2 hct hrest
      rw [sanitizeFields_cons]
      by_cases h1 : toSnakeCase k ∈ schema_field_names
      · rw [if_pos ((contains_eq_true_iff _ _).mpr h1)] at hentry
        rw [emitVal_of_items ct b k w h1]
        rw [stableFields]
        simp only [Bool.and_eq_true]
        refine ⟨⟨decide_eq_true (toSnakeCase_idem k), ?_⟩, hrec⟩
        rw [if_pos ((contains_eq_true_iff _ _).mpr h1)]
        exact wf_sanitize_stable w b hentry
      · rw [if_neg (fun hc => h1 ((contains_eq_true_iff _ _).mp hc))] at hentry
        by_cases h2 : toSnakeCase k ∈ list_schema_field_names
        · rw [if_pos ((contains_eq_true_iff _ _).mpr h2)] at hentry
          rw [emitVal_of_any_of ct b k w h1 h2]
          rw [stableFields]
          simp only [Bool.and_eq_true]
          refine ⟨⟨decide_eq_true (toSnakeCase_idem k), ?_⟩, hrec⟩
          rw [if_neg (fun hc => h1 ((contains_eq_true_iff _ _).mp hc)),
            if_pos ((contains_eq_true_iff _ _).mpr h2)]
          cases w with
          | arr xs =>
              rw [wfAnyOfVal] at hentry
              rw [sanitizeAnyOfVal, stableAnyOf]
              exact wf_list_stable xs hentry
          | str s => simp [wfAnyOfVal] at hentry
          | int n => simp [wfAnyOfVal] at hentry
          | bool b0 => simp [wfAnyOfVal] at hentry
          | null => simp [wfAnyOfVal] at hentry
          | obj es => simp [wfAnyOfVal] at hentry
        · rw [if_neg (fun hc => h2 ((contains_eq_true_iff _ _).mp hc))] at hentry
          by_cases h3 : toSnakeCase k ∈ dict_schema_field_names
          · rw [if_pos ((contains_eq_true_iff _ _).mpr h3)] at hentry
            cases w with
            | null =>
                rw [emitVal_null ct b k h1 h2]
                exact hrec
            | obj es =>
                rw [wfPropsVal] at hentry
                rw [emitVal_of_dict ct b k (.obj es) h1 h2 h3 (by intro hc; cases hc)]
                rw [sanitizePropsVal]
                rw [stableFields]
                simp only [Bool.and_eq_true]
                refine ⟨⟨decide_eq_true (toSnakeCase_idem k), ?_⟩, hrec⟩
                rw [if_neg (fun hc => h1 ((contains_eq_true_iff _ _).mp hc)),
                  if_neg (fun hc => h2 ((contains_eq_true_iff _ _).mp hc)),
                  if_pos ((contains_eq_true_iff _ _).mpr h3)]
                rw [stableDict]
                simp only [Bool.and_eq_true]
                exact ⟨decide_eq_true (by intro hc; cases hc),
                  wf_props_stable es b hentry⟩
            | str s => simp [wfPropsVal] at hentry
            | int n => simp [wfPropsVal] at hentry
            | bool b0 => simp [wfPropsVal] at hentry
            | arr xs => simp [wfPropsVal] at hentry
          · rw [if_neg (fun hc => h3 ((contains_eq_true_iff _ _).mp hc))] at hentry
            by_cases h4 : toSnakeCase k = "format"
            · by_cases htr : truthy w = true
              · rw [emitVal_of_format ct b k w h4 htr]
                by_cases hfc : formatCond ct w
                · rw [if_pos hfc]
                  rw [stableFields]
                  simp only [Bool.and_eq_true]
                  refine ⟨⟨decide_eq_true (toSnakeCase_idem k), ?_⟩, hrec⟩
                  rw [h4]
                  rw [if_neg (by decide), if_neg (by decide), if_neg (by decide),
                    if_pos rfl]
                  have hwn : w ≠ .null := by
                    rcases hfc with ⟨_, hw | hw⟩ | ⟨_, hw | hw⟩ <;> subst hw <;>
                      intro hc <;> cases hc
                  simp [hwn, htr, hct w hfc]
                · rw [if_neg hfc]
                  exact hrec
              · have hfalse : truthy w = false := by
                  cases ht2 : truthy w
                  · rfl
                  · exact absurd ht2 htr
                by_cases hwn : w = .null
                · subst hwn
                  rw [emitVal_null ct b k h1 h2]
                  exact hrec
                · rw [emitVal_format_nontruthy ct b k w h4 hfalse hwn]
                  rw [stableFields]
                  simp only [Bool.and_eq_true]
                  refine ⟨⟨decide_eq_true (toSnakeCase_idem k), ?_⟩, hrec⟩
                  rw [h4, if_neg (by decide), if_neg (by decide), if_neg (by decide),
                    if_pos rfl]
                  simp [hwn, hfalse]
            · by_cases h5 : toSnakeCase k ∈ supported_fields
              · by_cases hwn : w = .null
                · subst hwn
                  rw [emitVal_null ct b k h1 h2]
                  exact hrec
                · rw [emitVal_of_supported ct b k w h1 h2 h3 h4 h5 hwn]
                  rw [stableFields]
                  simp only [Bool.and_eq_true]
                  refine ⟨⟨decide_eq_true (toSnakeCase_idem k), ?_⟩, hrec⟩
                  rw [if_neg (fun hc => h1 ((contains_eq_true_iff _ _).mp hc)),
                    if_neg (fun hc => h2 ((contains_eq_true_iff _ _).mp hc)),
                    if_neg (fun hc => h3 ((contains_eq_true_iff _ _).mp hc)),
                    if_neg h4]
                  rw [Bool.and_eq_true]
                  exact ⟨(contains_eq_true_iff _ _).mpr h5, decide_eq_true hwn⟩
              · rw [emitVal_unsupported ct b k w h1 h2 h3 h4 h5]
                exact hrec
termination_by structural fs

theorem wf_list_stable (xs : JList) (h : wfList xs = true) :
    stableList (sanitizeAnyOfList xs) = true :=
  match xs, h with
  | .nil, _ => rfl
  | .cons v rest, h => by
      rw [wfList, Bool.and_eq_true] at h
      obtain ⟨hv, hrest⟩ := h
      rw [sanitizeAnyOfList, stableList]
      simp only [Bool.and_eq_true]
      exact ⟨wf_sanitize_stable v true hv, wf_list_stable rest hrest⟩
termination_by structural xs

theorem wf_props_stable (es : JObj) (b : Bool) (h : wfProps es = true) :
    stableProps (sanitizeProps es b) b = true :=
  match es, h with
  | .nil, _ => rfl
  | .cons k v rest, h => by
      rw [wfProps, Bool.and_eq_true] at h
      obtain ⟨hv, hrest⟩ := h
      rw [sanitizeProps, stableProps]
      simp only [Bool.and_eq_true]
      exact ⟨wf_sanitize_stable v b hv, wf_props_stable rest b hrest⟩
termination_by structural es

end

/- ### Claim C6 -/

/-- C6: normalization is idempotent.  For every input tree that is
well-formed per the spec's data model (every node a dict whose field names
are distinct after snake-casing, `items`/`any_of`/`properties`/`defs`
values of the right shapes, `type` a tag or list of tags), applying the
sanitizer `_sanitize_schema_formats_for_gemini_fixed` to the result of
sanitizing the tree returns that result unchanged, for either value of the
`in_any_of` flag. -/
theorem C6_normalizer_idempotent (v : JVal) (b : Bool) (h : wfVal v = true) :
    sanitize_schema_formats_for_gemini_fixed
        (sanitize_schema_formats_for_gemini_fixed v b) b =
      sanitize_schema_formats_for_gemini_fixed v b :=
  stable_sanitize _ b (wf_sanitize_stable v b h)

/-- C6 witness: idempotence on the concrete well-formed node
`{type: "null", camelKey: 1, description: "d", format: "enum"}`, whose first
sanitization rewrites the type to `["object", "null"]`, drops the unknown
key and the incompatible format. -/
theorem C6_witness :
    wfVal (.obj (.cons "type" (.str "null") (.cons "camelKey" (.int 1)
      (.cons "description" (.str "d") (.cons "format" (.str "enum") .nil))))) = true ∧
    sanitize_schema_formats_for_gemini_fixed
        (sanitize_schema_formats_for_gemini_fixed
          (.obj (.cons "type" (.str "null") (.cons "camelKey" (.int 1)
            (.cons "description" (.str "d") (.cons "format" (.str "enum") .nil)))))
          false) false =
      sanitize_schema_formats_for_gemini_fixed
        (.obj (.cons "type" (.str "null") (.cons "camelKey" (.int 1)
          (.cons "description" (.str "d") (.cons "format" (.str "enum") .nil)))))
        false :=
  ⟨by decide, C6_normalizer_idempotent _ false (by decide)⟩

end AdkSchema
